import Mathlib

/-! turbo-geth: length-prefix arithmetic and the block witness codec

A shallow embedding of

* `trie/rlphacks/utils_bytes.go` : the RLP length-prefix size functions and
  prefix writers, single and double wrap;
* `trie/witness.go` : the witness header, `Witness.WriteTo`,
  `NewWitnessFromReader` and `Witness.WriteDiff`;
* `core/types/derive_sha_test.go` : `legacyDeriveSha`, the reference
  computation of the root hash of a list;
* `ethdb/badger_db.go` : `bucketKey`.

Conventions of the embedding.

* A Go `int` is a Lean `Int`.  Every arithmetic result of the prefix functions
  is either compared with a constant or passed to `byte(·)`, which keeps the
  low eight bits; as 256 divides 2^64, a 64-bit wrap-around of an operand is
  invisible in the written byte.
* `x >> k` on an `int` is the arithmetic shift `Int.shiftRight x k`, and
  `x & 255` is `Int.land x 255`.
* A `[]byte` is a `List Nat`; the writers produce values below 256.
* A function that writes into a caller buffer returns the new buffer together
  with its Go result.  `none` is the run-time bounds panic of an indexed store.
-/

namespace rlphacks

/-- Conversion `byte(x)` of an `int` to `uint8`: the low eight bits of `x`. -/
def byte (x : Int) : Nat := (x % 256).toNat

/-- Indexed store `buffer[pos] = b`.  The result is `none` when `pos` is outside
`[0, len(buffer))`, the case in which Go panics. -/
def store (buffer : List Nat) (pos : Int) (b : Nat) : Option (List Nat) :=
  if 0 ≤ pos ∧ pos < (buffer.length : Int) then some (buffer.set pos.toNat b) else none

/-- Embedding of `generateByteArrayLen(buffer []byte, pos int, l int) int`. -/
def generateByteArrayLen (buffer : List Nat) (pos : Int) (l : Int) :
    Option (List Nat × Int) :=
  if l < 56 then do
    let buffer ← store buffer pos (byte (128 + l))
    let pos := pos + 1
    pure (buffer, pos)
  else if l < 256 then do
    -- len(vn) can be encoded as 1 byte
    let buffer ← store buffer pos (byte (183 + 1))
    let pos := pos + 1
    let buffer ← store buffer pos (byte l)
    let pos := pos + 1
    pure (buffer, pos)
  else if l < 65536 then do
    -- len(vn) is encoded as two bytes
    let buffer ← store buffer pos (byte (183 + 2))
    let pos := pos + 1
    let buffer ← store buffer pos (byte (Int.shiftRight l 8))
    let pos := pos + 1
    let buffer ← store buffer pos (byte (Int.land l 255))
    let pos := pos + 1
    pure (buffer, pos)
  else do
    -- len(vn) is encoded as three bytes
    let buffer ← store buffer pos (byte (183 + 3))
    let pos := pos + 1
    let buffer ← store buffer pos (byte (Int.shiftRight l 16))
    let pos := pos + 1
    let buffer ← store buffer pos (byte (Int.land (Int.shiftRight l 8) 255))
    let pos := pos + 1
    let buffer ← store buffer pos (byte (Int.land l 255))
    let pos := pos + 1
    pure (buffer, pos)

/-- Embedding of `generateRlpPrefixLen(l int) int`. -/
def generateRlpPrefixLen (l : Int) : Int :=
  if l < 2 then 0
  else if l < 56 then 1
  else if l < 256 then 2
  else if l < 65536 then 3
  else 4

/-- Embedding of `generateRlpPrefixLenDouble(l int, firstByte byte) int`. -/
def generateRlpPrefixLenDouble (l : Int) (firstByte : Nat) : Int :=
  if l < 2 then
    if firstByte ≥ 0x80 then 2 else 0
  else if l < 55 then 2
  else if l < 56 then 3 -- 2 + 1
  else if l < 254 then 4
  else if l < 256 then 5
  else if l < 65533 then 6
  else if l < 65536 then 7
  else 8

/-- Embedding of `generateByteArrayLenDouble(buffer []byte, pos int, l int) int`. -/
def generateByteArrayLenDouble (buffer : List Nat) (pos : Int) (l : Int) :
    Option (List Nat × Int) :=
  if l < 55 then do
    -- After first wrapping, the length will be l + 1 < 56
    let buffer ← store buffer pos (byte (128 + l + 1))
    let pos := pos + 1
    let buffer ← store buffer pos (byte (128 + l))
    let pos := pos + 1
    pure (buffer, pos)
  else if l < 56 then do
    let buffer ← store buffer pos (byte (183 + 1))
    let pos := pos + 1
    let buffer ← store buffer pos (byte (l + 1))
    let pos := pos + 1
    let buffer ← store buffer pos (byte (128 + l))
    let pos := pos + 1
    pure (buffer, pos)
  else if l < 254 then do
    -- After first wrapping, the length will be l + 2 < 256
    let buffer ← store buffer pos (byte (183 + 1))
    let pos := pos + 1
    let buffer ← store buffer pos (byte (l + 2))
    let pos := pos + 1
    let buffer ← store buffer pos (byte (183 + 1))
    let pos := pos + 1
    let buffer ← store buffer pos (byte l)
    let pos := pos + 1
    pure (buffer, pos)
  else if l < 256 then do
    -- First wrapping is 2 bytes, second wrapping 3 bytes
    let buffer ← store buffer pos (byte (183 + 2))
    let pos := pos + 1
    let buffer ← store buffer pos (byte (Int.shiftRight (l + 2) 8))
    let pos := pos + 1
    let buffer ← store buffer pos (byte (Int.land (l + 2) 255))
    let pos := pos + 1
    let buffer ← store buffer pos (byte (183 + 1))
    let pos := pos + 1
    let buffer ← store buffer pos (byte l)
    let pos := pos + 1
    pure (buffer, pos)
  else if l < 65533 then do
    -- Both wrappings are 3 bytes
    let buffer ← store buffer pos (byte (183 + 2))
    let pos := pos + 1
    let buffer ← store buffer pos (byte (Int.shiftRight (l + 3) 8))
    let pos := pos + 1
    let buffer ← store buffer pos (byte (Int.land (l + 3) 255))
    let pos := pos + 1
    let buffer ← store buffer pos (byte (183 + 2))
    let pos := pos + 1
    let buffer ← store buffer pos (byte (Int.shiftRight l 8))
    let pos := pos + 1
    let buffer ← store buffer pos (byte (Int.land l 255))
    let pos := pos + 1
    pure (buffer, pos)
  else if l < 65536 then do
    -- First wrapping is 3 bytes, second wrapping is 4 bytes
    let buffer ← store buffer pos (byte (183 + 3))
    let pos := pos + 1
    let buffer ← store buffer pos (byte (Int.shiftRight (l + 3) 16))
    let pos := pos + 1
    let buffer ← store buffer pos (byte (Int.land (Int.shiftRight (l + 3) 8) 255))
    let pos := pos + 1
    let buffer ← store buffer pos (byte (Int.land (l + 3) 255))
    let pos := pos + 1
    let buffer ← store buffer pos (byte (183 + 2))
    let pos := pos + 1
    let buffer ← store buffer pos (byte (Int.land (Int.shiftRight l 8) 255))
    let pos := pos + 1
    let buffer ← store buffer pos (byte (Int.land l 255))
    let pos := pos + 1
    pure (buffer, pos)
  else do
    -- Both wrappings are 4 bytes
    let buffer ← store buffer pos (byte (183 + 3))
    let pos := pos + 1
    let buffer ← store buffer pos (byte (Int.shiftRight (l + 4) 16))
    let pos := pos + 1
    let buffer ← store buffer pos (byte (Int.land (Int.shiftRight (l + 4) 8) 255))
    let pos := pos + 1
    let buffer ← store buffer pos (byte (Int.land (l + 4) 255))
    let pos := pos + 1
    let buffer ← store buffer pos (byte (183 + 3))
    let pos := pos + 1
    let buffer ← store buffer pos (byte (Int.shiftRight l 16))
    let pos := pos + 1
    let buffer ← store buffer pos (byte (Int.land (Int.shiftRight l 8) 255))
    let pos := pos + 1
    let buffer ← store buffer pos (byte (Int.land l 255))
    let pos := pos + 1
    pure (buffer, pos)

/-! ### Auxiliary definitions for the statements about the prefix writers -/

/-- Successive indexed stores of the bytes `bs` at `pos`, `pos+1`, ...; the
position returned is the one after the last store. -/
def storeAll (buffer : List Nat) (pos : Int) : List Nat → Option (List Nat × Int)
  | [] => some (buffer, pos)
  | b :: bs => (store buffer pos b).bind fun buffer => storeAll buffer (pos + 1) bs

/-- The bytes that `generateByteArrayLen` stores for the length `l`, in the
order of its stores. -/
def singleBytes (l : Int) : List Nat :=
  if l < 56 then [byte (128 + l)]
  else if l < 256 then [byte (183 + 1), byte l]
  else if l < 65536 then [byte (183 + 2), byte (Int.shiftRight l 8), byte (Int.land l 255)]
  else [byte (183 + 3), byte (Int.shiftRight l 16), byte (Int.land (Int.shiftRight l 8) 255),
        byte (Int.land l 255)]

/-- The bytes that `generateByteArrayLenDouble` stores for the length `l`, in
the order of its stores. -/
def doubleBytes (l : Int) : List Nat :=
  if l < 55 then [byte (128 + l + 1), byte (128 + l)]
  else if l < 56 then [byte (183 + 1), byte (l + 1), byte (128 + l)]
  else if l < 254 then [byte (183 + 1), byte (l + 2), byte (183 + 1), byte l]
  else if l < 256 then
    [byte (183 + 2), byte (Int.shiftRight (l + 2) 8), byte (Int.land (l + 2) 255),
     byte (183 + 1), byte l]
  else if l < 65533 then
    [byte (183 + 2), byte (Int.shiftRight (l + 3) 8), byte (Int.land (l + 3) 255),
     byte (183 + 2), byte (Int.shiftRight l 8), byte (Int.land l 255)]
  else if l < 65536 then
    [byte (183 + 3), byte (Int.shiftRight (l + 3) 16), byte (Int.land (Int.shiftRight (l + 3) 8) 255),
     byte (Int.land (l + 3) 255),
     byte (183 + 2), byte (Int.land (Int.shiftRight l 8) 255), byte (Int.land l 255)]
  else
    [byte (183 + 3), byte (Int.shiftRight (l + 4) 16), byte (Int.land (Int.shiftRight (l + 4) 8) 255),
     byte (Int.land (l + 4) 255),
     byte (183 + 3), byte (Int.shiftRight l 16), byte (Int.land (Int.shiftRight l 8) 255),
     byte (Int.land l 255)]

/-- Number of bytes `generateByteArrayLen` writes for the length `l`: the
position it returns when run at position 0 of a scratch buffer of four bytes. -/
def writtenLen (l : Int) : Int :=
  match generateByteArrayLen (List.replicate 4 0) 0 l with
  | some (_, pos) => pos
  | none => 0

/-- Number of bytes `generateByteArrayLenDouble` writes for the length `l`: the
position it returns when run at position 0 of a scratch buffer of eight bytes. -/
def writtenLenDouble (l : Int) : Int :=
  match generateByteArrayLenDouble (List.replicate 8 0) 0 l with
  | some (_, pos) => pos
  | none => 0

/-- The RLP string-length header as the specification words it: the single byte
`0x80 + l` for `l < 56`, otherwise the byte `0xB7 + n` followed by the `n` bytes
of the minimal big-endian representation of `l`. -/
def rlpStringHeader (l : Nat) : List Nat :=
  if l < 56 then [0x80 + l]
  else (0xB7 + (Nat.digits 256 l).length) :: (Nat.digits 256 l).reverse

/-- The statement of the writer contract at one input: the call returns, the
header of `l` stands at `pos`, the rest of the buffer is as before, and the
position returned is `pos` plus the number of header bytes. -/
def WritesStringHeader (buffer : List Nat) (pos : Int) (l : Int) : Prop :=
  generateByteArrayLen buffer pos l
    = some (buffer.take pos.toNat ++ rlpStringHeader l.toNat
              ++ buffer.drop (pos.toNat + (rlpStringHeader l.toNat).length),
            pos + (rlpStringHeader l.toNat).length)

/-- Value of a byte string read as a big-endian number. -/
def bigEndianValue (bs : List Nat) : Nat :=
  bs.foldl (fun acc b => acc * 256 + b) 0

/-- Reader of an RLP string-length header, as the specification words the
format: a first byte `0x80 + len` (up to `0xB7`) is a short string of length
`len`; a first byte `0xB7 + n` is followed by the `n` big-endian bytes of the
length.  The result is the payload length. -/
def readStringHeader : List Nat → Option Nat
  | [] => none
  | b :: rest =>
    if 0x80 ≤ b ∧ b ≤ 0xB7 then some (b - 0x80)
    else if 0xB8 ≤ b ∧ b ≤ 0xBF then
      if b - 0xB7 ≤ rest.length then some (bigEndianValue (rest.take (b - 0xB7)))
      else none
    else none

/-- Number of prefix bytes of one wrap of a payload of `l` bytes whose leading
byte is `firstByte`, as the specification words the rule: a single byte below
`0x80` needs no prefix and is emitted raw, everything else, the empty payload
too, gets the prefix that the single-wrap writer writes. -/
def singleWrapCount (l : Int) (firstByte : Nat) : Int :=
  if l = 1 ∧ firstByte < 0x80 then 0 else writtenLen l

/-- Leading byte of the payload after one wrap: the leading byte of the payload
when it is emitted raw, the first prefix byte otherwise. -/
def wrappedFirstByte (l : Int) (firstByte : Nat) : Nat :=
  if l = 1 ∧ firstByte < 0x80 then firstByte else (singleBytes l).headD 0

/-- Number of prefix bytes of wrapping once and wrapping the result once more,
each time by the single-wrap rule. -/
def doubleWrapCount (l : Int) (firstByte : Nat) : Int :=
  singleWrapCount l firstByte
    + singleWrapCount (l + singleWrapCount l firstByte) (wrappedFirstByte l firstByte)

/-- The bytes of `buffer` at the indices `[pos, pos + n)`. -/
def writtenBytes (buffer : List Nat) (pos : Int) (n : Int) : List Nat :=
  (buffer.drop pos.toNat).take n.toNat

/-- The number of prefix bytes for the length `l` as the safety contract of
the writer lists it: 1 for `l < 56`, 2 for `l < 256`, 3 for `l < 65536`, 4
otherwise. -/
def prefixBytesNeeded (l : Int) : Int :=
  if l < 56 then 1 else if l < 256 then 2 else if l < 65536 then 3 else 4

end rlphacks

/-! ## The block witness (`trie/witness.go`) -/

namespace trie

/-- The constant `WitnessVersion`, the current version of the block witness. -/
def WitnessVersion : Nat := 1

/-- The struct `WitnessHeader`: the version, a `uint8`. -/
structure WitnessHeader where
  Version : Nat
deriving DecidableEq

/-- Values of the Go type `error` that the witness code meets: `io.EOF`, the
two errors that `NewWitnessFromReader` builds with `fmt.Errorf`, and any other
error of a reader, a writer or an operand. -/
inductive Error where
  | EOF
  | UnexpectedVersion (expected got : Nat)
  | UnexpectedOpcode (opcode : Nat)
  | Other (msg : String)
deriving DecidableEq

/-- An input stream (`io.Reader`): the bytes still to be read, the error that
the stream reports at its end (`Error.EOF` for a stream that simply ends), and
whether the stream reports that error together with its last byte, as
`iotest.DataErrReader` does, or only at the read after the last byte, as
`bytes.Reader` and `bytes.Buffer` do.  Both are allowed to an `io.Reader`. -/
structure Reader where
  data : List Nat
  fail : Error
  failWithLast : Bool
deriving DecidableEq

/-- The result `(n, err)` of `input.Read(p)` for a slice `p` of one byte:
`n = 1` and no error, `n = 1` together with an error, or `n = 0` and an error;
with the byte stored in `p` and the stream after the read. -/
inductive ReadResult where
  | Byte (b : Nat) (rest : Reader)
  | ByteErr (b : Nat) (err : Error) (rest : Reader)
  | Err (err : Error)
deriving DecidableEq

/-- The call `input.Read(p)` for a slice `p` of one byte. -/
def Reader.Read (input : Reader) : ReadResult :=
  match input.data with
  | [] => .Err input.fail
  | b :: rest =>
    if rest = [] ∧ input.failWithLast = true then
      .ByteErr b input.fail ⟨rest, input.fail, input.failWithLast⟩
    else .Byte b ⟨rest, input.fail, input.failWithLast⟩

/-- Modelled from the spec: the operand structs are declared outside the files
at hand; the variants are the seven of the data model, with the fields that
`WriteDiff` reads (hash, key, value, nonce, balance, has-code and has-storage
flags, code, mask).  `WitnessOperand` is an interface in the source, so a
value of any further type may stand in an operand list: `OperandOther`, with
the name of its type. -/
inductive WitnessOperand where
  | OperandHash (Hash : List Nat)
  | OperandLeafValue (Key Value : List Nat)
  | OperandLeafAccount (Key : List Nat) (Nonce : Nat) (Balance : Int)
      (HasCode HasStorage : Bool)
  | OperandCode (Code : List Nat)
  | OperandBranch (Mask : Nat)
  | OperandEmptyRoot
  | OperandExtension (Key : List Nat)
  | OperandOther (typeName : String)
deriving DecidableEq

/-- The struct `Witness`. -/
structure Witness where
  Header : WitnessHeader
  Operands : List WitnessOperand
deriving DecidableEq

/-- Modelled from the spec: the opcode enumeration `Instruction` is declared
outside the files at hand; it is fixed and closed, one byte value for each of
the seven variants. -/
structure Opcodes where
  OpHash : Nat
  OpLeaf : Nat
  OpAccountLeaf : Nat
  OpCode : Nat
  OpBranch : Nat
  OpEmptyRoot : Nat
  OpExtension : Nat
deriving DecidableEq

/-- The seven opcodes. -/
def Opcodes.all (ops : Opcodes) : List Nat :=
  [ops.OpHash, ops.OpLeaf, ops.OpAccountLeaf, ops.OpCode, ops.OpBranch, ops.OpEmptyRoot,
    ops.OpExtension]

/-- Modelled from the spec: the methods `WriteTo` and `LoadFrom` of the operand
types are declared outside the files at hand, so they are parameters.
`WriteTo op` is the bytes that `op.WriteTo(out)` writes to the collector and
the error it returns.  `LoadFrom op input` is `op.LoadFrom(input)` on a fresh
operand `op`: the operand as loaded and the number of bytes consumed from
`input`, or an error. -/
structure OperandCodec where
  ops : Opcodes
  WriteTo : WitnessOperand → List Nat × Option Error
  LoadFrom : WitnessOperand → Reader → Except Error (WitnessOperand × Nat)

/-- Embedding of `(h *WitnessHeader) WriteTo`: the one byte of the version is
written to `out`. -/
def WitnessHeader.WriteTo (h : WitnessHeader) (out : List Nat) : List Nat × Option Error :=
  (out ++ [h.Version], none)

/-- Embedding of `(h *WitnessHeader) LoadFrom`: the header as loaded and the
stream after the version byte, or the error of the read.  The source tests
`err` before it uses `version[0]`, so an error that comes with the byte is
returned as well. -/
def WitnessHeader.LoadFrom (input : Reader) : Except Error (WitnessHeader × Reader) :=
  match input.Read with
  | .Err err => .error err
  | .ByteErr _ err _ => .error err
  | .Byte version input => .ok (⟨version⟩, input)

/-- Embedding of `defaultWitnessHeader`. -/
def defaultWitnessHeader : WitnessHeader := ⟨WitnessVersion⟩

/-- Embedding of `NewWitness`. -/
def NewWitness (operands : List WitnessOperand) : Witness :=
  ⟨defaultWitnessHeader, operands⟩

/-- The loop `for _, op := range w.Operands` of `Witness.WriteTo`: every operand
writes to `out`; the first error ends the loop. -/
def writeOperands (c : OperandCodec) : List WitnessOperand → List Nat → List Nat × Option Error
  | [], out => (out, none)
  | op :: rest, out =>
    match c.WriteTo op with
    | (bytes, some err) => (out ++ bytes, some err)
    | (bytes, none) => writeOperands c rest (out ++ bytes)

/-- Embedding of `(w *Witness) WriteTo`: the content of `out` after the call
and the error returned.  The statistics that the call returns beside the error
are not part of the embedding. -/
def Witness.WriteTo (c : OperandCodec) (w : Witness) (out : List Nat) :
    List Nat × Option Error :=
  match w.Header.WriteTo out with
  | (out, some err) => (out, some err)
  | (out, none) => writeOperands c w.Operands out

/-- The `switch Instruction(opcode[0])` of `NewWitnessFromReader`: the fresh
operand for an opcode, `none` in the `default` case. -/
def newOperand (ops : Opcodes) (opcode : Nat) : Option WitnessOperand :=
  if opcode = ops.OpHash then some (.OperandHash (List.replicate 32 0))
  else if opcode = ops.OpLeaf then some (.OperandLeafValue [] [])
  else if opcode = ops.OpAccountLeaf then some (.OperandLeafAccount [] 0 0 false false)
  else if opcode = ops.OpCode then some (.OperandCode [])
  else if opcode = ops.OpBranch then some (.OperandBranch 0)
  else if opcode = ops.OpEmptyRoot then some .OperandEmptyRoot
  else if opcode = ops.OpExtension then some (.OperandExtension [])
  else none

/-- The loop of `NewWitnessFromReader`, one iteration for each unit of fuel;
`operands` is the slice built so far.  An iteration reads the opcode byte and
tests `err` before it looks at `opcode[0]`: `io.EOF` ends the loop with the
operands read and another error is returned, in both cases also when the read
delivered a byte.  Without an error, an unknown opcode is an error, and an
error of `LoadFrom` is returned.  Every iteration consumes the opcode byte, so
`len(data) + 1` units of fuel are never used up. -/
def readOperands (c : OperandCodec) :
    Nat → Reader → List WitnessOperand → Except Error (List WitnessOperand)
  | 0, _, _ => .error (.Other "out of fuel")
  | fuel + 1, input, operands =>
    match input.Read with
    | .Err .EOF => .ok operands
    | .Err err => .error err
    | .ByteErr _ .EOF _ => .ok operands
    | .ByteErr _ err _ => .error err
    | .Byte opcode input =>
      match newOperand c.ops opcode with
      | none => .error (.UnexpectedOpcode opcode)
      | some op =>
        match c.LoadFrom op input with
        | .error err => .error err
        | .ok (op, n) =>
          readOperands c fuel ⟨input.data.drop n, input.fail, input.failWithLast⟩
            (operands ++ [op])

/-- Embedding of `NewWitnessFromReader(input io.Reader, trace bool)`: the
witness, or the error (with which the source returns a nil witness).  The flag
`trace` only prints to the standard output. -/
def NewWitnessFromReader (c : OperandCodec) (input : Reader) (_trace : Bool) :
    Except Error Witness :=
  match WitnessHeader.LoadFrom input with
  | .error err => .error err
  | .ok (header, input) =>
    if header.Version ≠ WitnessVersion then
      .error (.UnexpectedVersion WitnessVersion header.Version)
    else
      match readOperands c (input.data.length + 1) input [] with
      | .error err => .error err
      | .ok operands => .ok ⟨header, operands⟩

/-! ### `WriteDiff` -/

/-- A run-time panic of `WriteDiff`: an index outside the operand slice, or a
field read through a nil pointer. -/
inductive Panic where
  | IndexOutOfRange (index length : Nat)
  | NilDereference
deriving DecidableEq

/-- Decimal text of an integer as `(*big.Int).String` renders it: `0` for zero,
otherwise the decimal digits without leading zero, after a `-` when negative. -/
def bigIntString (x : Int) : List Char :=
  if x = 0 then ['0']
  else (if x < 0 then ['-'] else []) ++ (Nat.digits 10 x.natAbs).reverse.map Nat.digitChar

/-- The text of `%T` for an operand: the name of its dynamic type. -/
def typeName : WitnessOperand → String
  | .OperandHash _ => "*trie.OperandHash"
  | .OperandLeafValue _ _ => "*trie.OperandLeafValue"
  | .OperandLeafAccount _ _ _ _ _ => "*trie.OperandLeafAccount"
  | .OperandCode _ => "*trie.OperandCode"
  | .OperandBranch _ => "*trie.OperandBranch"
  | .OperandEmptyRoot => "*trie.OperandEmptyRoot"
  | .OperandExtension _ => "*trie.OperandExtension"
  | .OperandOther name => name

/-- One call of `fmt.Fprintf(output, ...)` in `WriteDiff`: which of its formats
was written, with the arguments.  The two texts of `Types` and `Unexpected` are
those of the two `%T`. -/
inductive DiffLine where
  | Header (v1 v2 : Nat)
  | OperandCount (n1 n2 : Nat)
  | Types (i : Nat) (t1 t2 : String)
  | Mask (i : Nat) (m1 m2 : Nat)
  | Hash (i : Nat) (h1 h2 : List Nat)
  | Code (i : Nat) (c1 c2 : List Nat)
  | ExtensionKey (i : Nat) (k1 k2 : List Nat)
  | LeafAccKey (i : Nat) (k1 k2 : List Nat)
  | LeafAccNonce (i : Nat) (n1 n2 : Nat)
  | LeafAccBalance (i : Nat) (b1 b2 : List Char)
  | LeafAccHasCode (i : Nat) (f1 f2 : Bool)
  | LeafAccHasStorage (i : Nat) (f1 f2 : Bool)
  | LeafValKey (i : Nat) (k1 k2 : List Nat)
  | LeafValValue (i : Nat) (v1 v2 : List Nat)
  | Unexpected (i : Nat) (t1 t2 : String)
deriving DecidableEq

/-- The body of the loop of `WriteDiff` for the index `i`, where `o1` is
`w.Operands[i]` and `operands2` is `w2.Operands`: the lines written, and the
panic that ends the call, if any.

In each case of the type switch `w2.Operands[i]` is read first, which panics
for `i` outside the slice.  When the type assertion fails (`!ok`), `o2` is the
nil pointer of the asserted type: the line written carries the type of `o1`
twice, and the next field read through `o2` panics; only the case
`*OperandEmptyRoot` reads no field. -/
def diffOperand (i : Nat) (o1 : WitnessOperand) (operands2 : List WitnessOperand) :
    List DiffLine × Option Panic :=
  match o1 with
  | .OperandBranch mask1 =>
    match operands2[i]? with
    | none => ([], some (.IndexOutOfRange i operands2.length))
    | some (.OperandBranch mask2) =>
      (if mask1 ≠ mask2 then [.Mask i mask1 mask2] else [], none)
    | some _ =>
      ([.Types i "*trie.OperandBranch" "*trie.OperandBranch"], some .NilDereference)
  | .OperandHash hash1 =>
    match operands2[i]? with
    | none => ([], some (.IndexOutOfRange i operands2.length))
    | some (.OperandHash hash2) =>
      (if hash1 ≠ hash2 then [.Hash i hash1 hash2] else [], none)
    | some _ =>
      ([.Types i "*trie.OperandHash" "*trie.OperandHash"], some .NilDereference)
  | .OperandCode code1 =>
    match operands2[i]? with
    | none => ([], some (.IndexOutOfRange i operands2.length))
    | some (.OperandCode code2) =>
      (if code1 ≠ code2 then [.Code i code1 code2] else [], none)
    | some _ =>
      ([.Types i "*trie.OperandCode" "*trie.OperandCode"], some .NilDereference)
  | .OperandEmptyRoot =>
    match operands2[i]? with
    | none => ([], some (.IndexOutOfRange i operands2.length))
    | some .OperandEmptyRoot => ([], none)
    | some _ =>
      ([.Types i "*trie.OperandEmptyRoot" "*trie.OperandEmptyRoot"], none)
  | .OperandExtension key1 =>
    match operands2[i]? with
    | none => ([], some (.IndexOutOfRange i operands2.length))
    | some (.OperandExtension key2) =>
      (if key1 ≠ key2 then [.ExtensionKey i key1 key2] else [], none)
    | some _ =>
      ([.Types i "*trie.OperandExtension" "*trie.OperandExtension"], some .NilDereference)
  | .OperandLeafAccount key1 nonce1 balance1 hasCode1 hasStorage1 =>
    match operands2[i]? with
    | none => ([], some (.IndexOutOfRange i operands2.length))
    | some (.OperandLeafAccount key2 nonce2 balance2 hasCode2 hasStorage2) =>
      ((if key1 ≠ key2 then [.LeafAccKey i key1 key2] else [])
        ++ (if nonce1 ≠ nonce2 then [.LeafAccNonce i nonce1 nonce2] else [])
        ++ (if bigIntString balance1 ≠ bigIntString balance2 then
              [.LeafAccBalance i (bigIntString balance1) (bigIntString balance2)] else [])
        ++ (if hasCode1 ≠ hasCode2 then [.LeafAccHasCode i hasCode1 hasCode2] else [])
        ++ (if hasStorage1 ≠ hasStorage2 then
              [.LeafAccHasStorage i hasStorage1 hasStorage2] else []),
       none)
    | some _ =>
      ([.Types i "*trie.OperandLeafAccount" "*trie.OperandLeafAccount"],
       some .NilDereference)
  | .OperandLeafValue key1 value1 =>
    match operands2[i]? with
    | none => ([], some (.IndexOutOfRange i operands2.length))
    | some (.OperandLeafValue key2 value2) =>
      ((if key1 ≠ key2 then [.LeafValKey i key1 key2] else [])
        ++ (if value1 ≠ value2 then [.LeafValValue i value1 value2] else []),
       none)
    | some _ =>
      ([.Types i "*trie.OperandLeafValue" "*trie.OperandLeafValue"], some .NilDereference)
  | .OperandOther name1 =>
    match operands2[i]? with
    | none => ([], some (.IndexOutOfRange i operands2.length))
    | some o2 => ([.Unexpected i name1 (typeName o2)], none)

/-- The loop `for i := 0; i < len(w.Operands); i++` of `WriteDiff` from the
index `i` on, where `operands1` is `w.Operands[i:]`: the content of `output`
when the loop ends, and the panic that ended it, if any. -/
def diffLoop (operands2 : List WitnessOperand) :
    Nat → List WitnessOperand → List DiffLine → List DiffLine × Option Panic
  | _, [], output => (output, none)
  | i, o1 :: operands1, output =>
    match diffOperand i o1 operands2 with
    | (lines, some p) => (output ++ lines, some p)
    | (lines, none) => diffLoop operands2 (i + 1) operands1 (output ++ lines)

/-- Embedding of `(w *Witness) WriteDiff(w2 *Witness, output io.Writer)`: the
content of `output` after the call, and the panic that ended the call, if
any. -/
def Witness.WriteDiff (w w2 : Witness) (output : List DiffLine) :
    List DiffLine × Option Panic :=
  let output :=
    if w.Header.Version ≠ w2.Header.Version then
      output ++ [.Header w.Header.Version w2.Header.Version]
    else output
  let output :=
    if w.Operands.length ≠ w2.Operands.length then
      output ++ [.OperandCount w.Operands.length w2.Operands.length]
    else output
  diffLoop w2.Operands 0 w.Operands output

/-! ### Auxiliary definitions for the statements about the witness codec -/

/-- The opcode of the variant of an operand; `none` for a value of a type
outside the seven variants. -/
def opcodeOf (ops : Opcodes) : WitnessOperand → Option Nat
  | .OperandHash _ => some ops.OpHash
  | .OperandLeafValue _ _ => some ops.OpLeaf
  | .OperandLeafAccount _ _ _ _ _ => some ops.OpAccountLeaf
  | .OperandCode _ => some ops.OpCode
  | .OperandBranch _ => some ops.OpBranch
  | .OperandEmptyRoot => some ops.OpEmptyRoot
  | .OperandExtension _ => some ops.OpExtension
  | .OperandOther _ => none

/-- The `WriteTo`/`LoadFrom` pair of the operand `op` round-trips: `WriteTo`
returns no error and writes the opcode of the variant followed by the fields;
`LoadFrom`, called as the decoder calls it (on the fresh operand that the
opcode selects, with a stream of written bytes that starts with these fields),
returns `op` and consumes exactly the fields. -/
def RoundTrips (c : OperandCodec) (op : WitnessOperand) : Prop :=
  ∃ opcode fields, opcodeOf c.ops op = some opcode
    ∧ c.WriteTo op = (opcode :: fields, none)
    ∧ ∀ fresh, newOperand c.ops opcode = some fresh →
        ∀ rest fail, c.LoadFrom fresh ⟨fields ++ rest, fail, false⟩ = .ok (op, fields.length)

/-- One iteration of the loop of `NewWitnessFromReader` that appends an
operand: the operand and the stream after its fields; `none` when the
iteration ends the loop or the call instead. -/
def readOperand (c : OperandCodec) (input : Reader) : Option (WitnessOperand × Reader) :=
  match input.Read with
  | .Err _ => none
  | .ByteErr _ _ _ => none
  | .Byte opcode input =>
    match newOperand c.ops opcode with
    | none => none
    | some op =>
      match c.LoadFrom op input with
      | .error _ => none
      | .ok (op, n) => some (op, ⟨input.data.drop n, input.fail, input.failWithLast⟩)

/-- The opcode boundary after `k` operands: the operands read by `k`
iterations from `input`, and the stream at which the next opcode is due. -/
def boundaryAfter (c : OperandCodec) :
    Nat → Reader → Option (List WitnessOperand × Reader)
  | 0, input => some ([], input)
  | k + 1, input =>
    match readOperand c input with
    | none => none
    | some (op, input) =>
      match boundaryAfter c k input with
      | none => none
      | some (operands, input) => some (op :: operands, input)

/-- The bytes written by the operands of a list, when none fails. -/
def encodeOperands (c : OperandCodec) (ops : List WitnessOperand) : List Nat :=
  ops.flatMap fun op => (c.WriteTo op).1

/-! ### A small operand codec, to instantiate the statements -/

/-- Opcodes of the demonstration codec. -/
def demoOpcodes : Opcodes :=
  ⟨3, 0, 5, 4, 2, 6, 1⟩

/-- The `WriteTo` of the demonstration codec: the opcode, then every byte string
after its length, and every number as one byte. -/
def demoWriteTo : WitnessOperand → List Nat × Option Error
  | .OperandHash hash => (3 :: hash.length :: hash, none)
  | .OperandLeafValue key value => (0 :: key.length :: (key ++ value.length :: value), none)
  | .OperandLeafAccount key nonce balance hasCode hasStorage =>
    (5 :: key.length :: (key ++ [nonce, (if balance < 0 then 1 else 0), balance.natAbs,
      hasCode.toNat, hasStorage.toNat]), none)
  | .OperandCode code => (4 :: code.length :: code, none)
  | .OperandBranch mask => ([2, mask], none)
  | .OperandEmptyRoot => ([6], none)
  | .OperandExtension key => (1 :: key.length :: key, none)
  | .OperandOther _ => ([], some (.Other "no encoding"))

/-- A byte string after its length, read from the head of `data`: the string
and the number of bytes consumed. -/
def demoReadBytes : List Nat → Option (List Nat × Nat)
  | [] => none
  | n :: rest => if n ≤ rest.length then some (rest.take n, n + 1) else none

/-- The `LoadFrom` of the demonstration codec; a stream that ends inside the fields
gives the error of the stream. -/
def demoLoadFrom (fresh : WitnessOperand) (input : Reader) :
    Except Error (WitnessOperand × Nat) :=
  match fresh with
  | .OperandHash _ =>
    match demoReadBytes input.data with
    | some (hash, n) => .ok (.OperandHash hash, n)
    | none => .error input.fail
  | .OperandLeafValue _ _ =>
    match demoReadBytes input.data with
    | some (key, n) =>
      match demoReadBytes (input.data.drop n) with
      | some (value, m) => .ok (.OperandLeafValue key value, n + m)
      | none => .error input.fail
    | none => .error input.fail
  | .OperandLeafAccount _ _ _ _ _ =>
    match demoReadBytes input.data with
    | some (key, n) =>
      match input.data.drop n with
      | nonce :: sign :: abs :: hasCode :: hasStorage :: _ =>
        .ok (.OperandLeafAccount key nonce (if sign = 1 then - (abs : Int) else (abs : Int))
          (hasCode = 1) (hasStorage = 1), n + 5)
      | _ => .error input.fail
    | none => .error input.fail
  | .OperandCode _ =>
    match demoReadBytes input.data with
    | some (code, n) => .ok (.OperandCode code, n)
    | none => .error input.fail
  | .OperandBranch _ =>
    match input.data with
    | mask :: _ => .ok (.OperandBranch mask, 1)
    | [] => .error input.fail
  | .OperandEmptyRoot => .ok (.OperandEmptyRoot, 0)
  | .OperandExtension _ =>
    match demoReadBytes input.data with
    | some (key, n) => .ok (.OperandExtension key, n)
    | none => .error input.fail
  | .OperandOther name => .error (.Other name)

/-- The demonstration codec. -/
def demoCodec : OperandCodec :=
  ⟨demoOpcodes, demoWriteTo, demoLoadFrom⟩

/-- An operand list with each of the seven variants. -/
def demoOperands : List WitnessOperand :=
  [.OperandBranch 5, .OperandHash [1, 2], .OperandLeafValue [3] [4, 5],
   .OperandLeafAccount [6] 7 (-8) true false, .OperandCode [9], .OperandEmptyRoot,
   .OperandExtension [10, 11]]

/-! ### Auxiliary definitions for the statements about `WriteDiff` -/

/-- An operand of one of the seven known variants. -/
def WitnessOperand.known : WitnessOperand → Bool
  | .OperandOther _ => false
  | _ => true

/-- Two operands of the same variant, one of the seven known variants. -/
def sameKnownVariant : WitnessOperand → WitnessOperand → Bool
  | .OperandHash _, .OperandHash _ => true
  | .OperandLeafValue _ _, .OperandLeafValue _ _ => true
  | .OperandLeafAccount _ _ _ _ _, .OperandLeafAccount _ _ _ _ _ => true
  | .OperandCode _, .OperandCode _ => true
  | .OperandBranch _, .OperandBranch _ => true
  | .OperandEmptyRoot, .OperandEmptyRoot => true
  | .OperandExtension _, .OperandExtension _ => true
  | _, _ => false

/-- The value of a field of an operand. -/
inductive FieldValue where
  | Bytes (b : List Nat)
  | Number (n : Nat)
  | Integer (x : Int)
  | Flag (b : Bool)
deriving DecidableEq

/-- The fields of an operand of the seven variants, by name, as the
specification lists them: hash bytes, masks, keys, values, code, nonce,
balance, boolean flags. -/
def fields : WitnessOperand → List (String × FieldValue)
  | .OperandHash hash => [("Hash", .Bytes hash)]
  | .OperandLeafValue key value => [("Key", .Bytes key), ("Value", .Bytes value)]
  | .OperandLeafAccount key nonce balance hasCode hasStorage =>
    [("Key", .Bytes key), ("Nonce", .Number nonce), ("Balance", .Integer balance),
     ("HasCode", .Flag hasCode), ("HasStorage", .Flag hasStorage)]
  | .OperandCode code => [("Code", .Bytes code)]
  | .OperandBranch mask => [("Mask", .Number mask)]
  | .OperandEmptyRoot => []
  | .OperandExtension key => [("Key", .Bytes key)]
  | .OperandOther _ => []

/-- The names of the fields in which two operands of one variant differ. -/
def differingFields (o1 o2 : WitnessOperand) : List String :=
  ((fields o1).zip (fields o2)).filterMap fun p =>
    if p.1.2 ≠ p.2.2 then some p.1.1 else none

/-- The divergences that the specification asks for between two operand lists
of equal variants, from the index `i` on: one for each differing field, as the
operand index and the field name. -/
def expectedDivergences : Nat → List WitnessOperand → List WitnessOperand → List (Nat × String)
  | i, o1 :: operands1, o2 :: operands2 =>
    (differingFields o1 o2).map (fun name => (i, name))
      ++ expectedDivergences (i + 1) operands1 operands2
  | _, _, _ => []

/-- What a line of `WriteDiff` names when it reports a field: the operand index
and the field name of its format; `none` for the other lines. -/
def DiffLine.field : DiffLine → Option (Nat × String)
  | .Mask i _ _ => some (i, "Mask")
  | .Hash i _ _ => some (i, "Hash")
  | .Code i _ _ => some (i, "Code")
  | .ExtensionKey i _ _ => some (i, "Key")
  | .LeafAccKey i _ _ => some (i, "Key")
  | .LeafAccNonce i _ _ => some (i, "Nonce")
  | .LeafAccBalance i _ _ => some (i, "Balance")
  | .LeafAccHasCode i _ _ => some (i, "HasCode")
  | .LeafAccHasStorage i _ _ => some (i, "HasStorage")
  | .LeafValKey i _ _ => some (i, "Key")
  | .LeafValValue i _ _ => some (i, "Value")
  | .Header _ _ => none
  | .OperandCount _ _ => none
  | .Types _ _ _ => none
  | .Unexpected _ _ _ => none

end trie

/-! ## The bucket keys of the Badger database (`ethdb/badger_db.go`) -/

namespace ethdb

/-- The constant `bucketSeparator`. -/
def bucketSeparator : Nat := 0xA6

/-- Embedding of `bucketKey(bucket, key []byte) []byte`: the three `append`
calls on the empty slice `composite`. -/
def bucketKey (bucket key : List Nat) : List Nat :=
  let composite : List Nat := []
  let composite := composite ++ bucket
  let composite := composite ++ [bucketSeparator]
  let composite := composite ++ key
  composite

end ethdb

/-! ## The root hash of a list (`core/types/derive_sha_test.go`) -/

namespace types

/-- The interface `DerivableList`, as `legacyDeriveSha` uses it: `Len()` and
`GetRaw(i)`. -/
structure DerivableList where
  Len : Int
  GetRaw : Nat → List Nat

/-- Modelled from the spec: the trie (`trie.New`, `Update`, `Hash`) and
`rlp.Encode` are declared outside the files at hand and are external
collaborators of the specification: a type of tries with the empty trie, the
insertion of a value under a key (with the block number of the source), the
root hash, and the RLP encoding of an unsigned integer. -/
structure TrieOps where
  Trie : Type
  New : Trie
  Update : Trie → List Nat → List Nat → Nat → Trie
  Hash : Trie → List Nat
  rlpEncodeUint : Nat → List Nat

/-- The loop `for i := 0; i < list.Len(); i++` of `legacyDeriveSha` from the
index `i` on, one iteration for each unit of fuel: the key buffer is reset,
the RLP encoding of `uint(i)` is written to it, and the trie is updated under
that key with `list.GetRaw(i)`. -/
def legacyLoop (T : TrieOps) (list : DerivableList) : Nat → Nat → T.Trie → T.Trie
  | 0, _, trie => trie
  | fuel + 1, i, trie =>
    if (i : Int) < list.Len then
      let keybuf : List Nat := []
      let keybuf := keybuf ++ T.rlpEncodeUint i
      let trie := T.Update trie keybuf (list.GetRaw i) 0
      legacyLoop T list fuel (i + 1) trie
    else trie

/-- Embedding of `legacyDeriveSha(list DerivableList) common.Hash`; the loop
ends after `list.Len()` iterations. -/
def legacyDeriveSha (T : TrieOps) (list : DerivableList) : List Nat :=
  T.Hash (legacyLoop T list list.Len.toNat 0 T.New)

/-- Modelled from the spec: `DeriveSha` is declared outside the files at hand.
Its contract is the root hash of the trie obtained by inserting, for every
index `i` in `[0, len)`, the raw bytes of the item `i` under the key that is
the RLP encoding of the unsigned integer `i`, into an initially empty trie. -/
def DeriveSha (T : TrieOps) (list : DerivableList) : List Nat :=
  T.Hash ((List.range list.Len.toNat).foldl
    (fun trie i => T.Update trie (T.rlpEncodeUint i) (list.GetRaw i) 0) T.New)

end types

/-! ## Length-prefix arithmetic: lemmas -/

namespace rlphacks

theorem byte_natCast (n : Nat) : byte (n : Int) = n % 256 := by
  unfold byte; omega

theorem shiftRight_natCast (n k : Nat) :
    Int.shiftRight (n : Int) k = ((n / 2 ^ k : Nat) : Int) := by
  show ((n >>> k : Nat) : Int) = _
  rw [Nat.shiftRight_eq_div_pow]

theorem land255_natCast (n : Nat) : Int.land (n : Int) 255 = ((n % 256 : Nat) : Int) := by
  show ((n &&& 255 : Nat) : Int) = _
  have h := Nat.and_pow_two_sub_one_eq_mod n 8
  norm_num at h
  rw [h]

theorem store_natCast (buffer : List Nat) (p b : Nat) (h : p < buffer.length) :
    store buffer (p : Int) b = some (buffer.take p ++ b :: buffer.drop (p + 1)) := by
  unfold store
  have h1 : (0 : Int) ≤ (p : Int) ∧ (p : Int) < (buffer.length : Int) := by omega
  rw [if_pos h1, Int.toNat_natCast, List.set_eq_take_append_cons_drop, if_pos h]

theorem store_eq_none (buffer : List Nat) (pos : Int) (b : Nat)
    (h : pos < 0 ∨ (buffer.length : Int) ≤ pos) : store buffer pos b = none := by
  unfold store
  rw [if_neg (by omega)]

/-- With room for all of `bs` from `p` on, the stores succeed: `bs` stands at
`p`, the bytes around it are those of `buffer`. -/
theorem storeAll_natCast (bs : List Nat) : ∀ (buffer : List Nat) (p : Nat),
    p + bs.length ≤ buffer.length →
    storeAll buffer (p : Int) bs
      = some (buffer.take p ++ bs ++ buffer.drop (p + bs.length),
              (p : Int) + bs.length) := by
  induction bs with
  | nil => intro buffer p _; simp [storeAll]
  | cons b bs ih =>
    intro buffer p h
    simp only [List.length_cons] at h
    have hp : p < buffer.length := by omega
    have hlen : (buffer.take p ++ b :: buffer.drop (p + 1)).length = buffer.length := by
      simp only [List.length_append, List.length_take, List.length_cons, List.length_drop]
      omega
    have ih2 := ih (buffer.take p ++ b :: buffer.drop (p + 1)) (p + 1) (by omega)
    simp only [storeAll, store_natCast buffer p b hp, Option.some_bind]
    have hc : ((p : Int) + 1) = ((p + 1 : Nat) : Int) := by push_cast; rfl
    rw [hc, ih2]
    have e1 : (buffer.take p ++ b :: buffer.drop (p + 1)).take (p + 1)
        = buffer.take p ++ [b] := by
      rw [List.take_append_eq_append_take]
      simp [List.length_take, Nat.min_eq_left (Nat.le_of_lt hp)]
    have e2 : (buffer.take p ++ b :: buffer.drop (p + 1)).drop (p + 1 + bs.length)
        = buffer.drop (p + (bs.length + 1)) := by
      rw [List.drop_append_eq_append_drop]
      have a1 : p + 1 + bs.length - (buffer.take p).length = bs.length + 1 := by
        rw [List.length_take, Nat.min_eq_left (Nat.le_of_lt hp)]; omega
      have a2 : (buffer.take p).drop (p + 1 + bs.length) = [] := by
        apply List.drop_eq_nil_of_le
        rw [List.length_take]; omega
      rw [a1, a2, List.nil_append, List.drop_succ_cons, List.drop_drop]
      congr 1
      omega
    rw [e1, e2]
    simp only [List.length_cons, List.append_assoc, List.singleton_append, Nat.cast_add,
      Nat.cast_one]
    congr 2
    omega

/-- The form of `storeAll_natCast` for an `int` position. -/
theorem storeAll_ok (buffer : List Nat) (pos : Int) (bs : List Nat) (hpos : 0 ≤ pos)
    (hcap : pos + bs.length ≤ buffer.length) :
    storeAll buffer pos bs
      = some (buffer.take pos.toNat ++ bs ++ buffer.drop (pos.toNat + bs.length),
              pos + bs.length) := by
  obtain ⟨p, rfl⟩ := Int.eq_ofNat_of_zero_le hpos
  have h : p + bs.length ≤ buffer.length := by omega
  rw [storeAll_natCast bs buffer p h, Int.toNat_natCast]

/-- Storing `as ++ bs` is storing `as` and then `bs` from where `as` ended. -/
theorem storeAll_append (as bs : List Nat) : ∀ (buffer : List Nat) (pos : Int),
    storeAll buffer pos (as ++ bs)
      = (storeAll buffer pos as).bind fun r => storeAll r.1 r.2 bs := by
  induction as with
  | nil => intro buffer pos; simp [storeAll]
  | cons a as ih =>
    intro buffer pos
    simp only [List.cons_append, storeAll]
    cases store buffer pos a with
    | none => rfl
    | some b1 => simp only [Option.some_bind]; exact ih b1 (pos + 1)

theorem generateByteArrayLen_eq_storeAll (buffer : List Nat) (pos l : Int) :
    generateByteArrayLen buffer pos l = storeAll buffer pos (singleBytes l) := by
  unfold generateByteArrayLen singleBytes
  split_ifs <;> rfl

theorem generateByteArrayLenDouble_eq_storeAll (buffer : List Nat) (pos l : Int) :
    generateByteArrayLenDouble buffer pos l = storeAll buffer pos (doubleBytes l) := by
  unfold generateByteArrayLenDouble doubleBytes
  split_ifs <;> rfl

theorem singleBytes_length (l : Int) :
    ((singleBytes l).length : Int) =
      if l < 56 then 1 else if l < 256 then 2 else if l < 65536 then 3 else 4 := by
  unfold singleBytes
  split_ifs <;> rfl

theorem doubleBytes_length (l : Int) :
    ((doubleBytes l).length : Int) =
      if l < 55 then 2 else if l < 56 then 3 else if l < 254 then 4
      else if l < 256 then 5 else if l < 65533 then 6 else if l < 65536 then 7 else 8 := by
  unfold doubleBytes
  split_ifs <;> rfl

theorem writtenLen_eq (l : Int) : writtenLen l = (singleBytes l).length := by
  have hlen := singleBytes_length l
  have hcap : (0 : Int) + (singleBytes l).length ≤ (List.replicate 4 0).length := by
    rw [hlen]; simp only [List.length_replicate]; split_ifs <;> norm_num
  unfold writtenLen
  rw [generateByteArrayLen_eq_storeAll, storeAll_ok _ 0 _ (le_refl 0) hcap]
  simp

theorem writtenLenDouble_eq (l : Int) : writtenLenDouble l = (doubleBytes l).length := by
  have hlen := doubleBytes_length l
  have hcap : (0 : Int) + (doubleBytes l).length ≤ (List.replicate 8 0).length := by
    rw [hlen]; simp only [List.length_replicate]; split_ifs <;> norm_num
  unfold writtenLenDouble
  rw [generateByteArrayLenDouble_eq_storeAll, storeAll_ok _ 0 _ (le_refl 0) hcap]
  simp

/-- For a length below 2^24 the bytes of the writer are the RLP header. -/
theorem singleBytes_eq_header (n : Nat) (h : n < 16777216) :
    singleBytes (n : Int) = rlpStringHeader n := by
  unfold singleBytes rlpStringHeader
  by_cases h1 : n < 56
  · have h1i : (n : Int) < 56 := by omega
    rw [if_pos h1i, if_pos h1]
    have e : (128 : Int) + (n : Int) = ((128 + n : Nat) : Int) := by push_cast; rfl
    rw [e, byte_natCast]
    congr 1
    omega
  · have h1i : ¬ (n : Int) < 56 := by omega
    rw [if_neg h1i, if_neg h1]
    have hb : (1 : Nat) < 256 := by norm_num
    by_cases h2 : n < 256
    · have h2i : (n : Int) < 256 := by omega
      rw [if_pos h2i, Nat.digits_of_lt 256 n (by omega) h2]
      have e : byte (183 + 1) = 184 := by decide
      rw [e, byte_natCast]
      simp only [List.length_singleton, List.reverse_singleton]
      congr 2
      omega
    · have h2i : ¬ (n : Int) < 256 := by omega
      rw [if_neg h2i]
      by_cases h3 : n < 65536
      · have h3i : (n : Int) < 65536 := by omega
        have hd : Nat.digits 256 n = [n % 256, n / 256] := by
          rw [Nat.digits_def' hb (by omega),
            Nat.digits_of_lt 256 (n / 256) (by omega) (by omega)]
        rw [if_pos h3i, hd, shiftRight_natCast, land255_natCast, byte_natCast, byte_natCast]
        have e : byte (183 + 2) = 185 := by decide
        rw [e]
        simp only [List.length_cons, List.length_nil, List.reverse_cons, List.reverse_nil,
          List.nil_append, List.singleton_append]
        have a1 : n / 2 ^ 8 % 256 = n / 256 := by
          have p8 : (2 : Nat) ^ 8 = 256 := by norm_num
          rw [p8]; omega
        have a2 : n % 256 % 256 = n % 256 := by omega
        rw [a1, a2]
      · have h3i : ¬ (n : Int) < 65536 := by omega
        have hd : Nat.digits 256 n = [n % 256, n / 256 % 256, n / 256 / 256] := by
          rw [Nat.digits_def' hb (by omega), Nat.digits_def' hb (by omega),
            Nat.digits_of_lt 256 (n / 256 / 256) (by omega) (by omega)]
        rw [if_neg h3i, hd, shiftRight_natCast, shiftRight_natCast, land255_natCast,
          land255_natCast, byte_natCast, byte_natCast, byte_natCast]
        have e : byte (183 + 3) = 186 := by decide
        have p8 : (2 : Nat) ^ 8 = 256 := by norm_num
        have p16 : (2 : Nat) ^ 16 = 65536 := by norm_num
        rw [e, p8, p16]
        simp only [List.length_cons, List.length_nil, List.reverse_cons, List.reverse_nil,
          List.nil_append, List.singleton_append, List.cons_append]
        have a1 : n / 65536 % 256 = n / 256 / 256 := by omega
        have a2 : n / 256 % 256 % 256 = n / 256 % 256 := by omega
        have a3 : n % 256 % 256 = n % 256 := by omega
        rw [a1, a2, a3]

/-- With room for the whole prefix, `generateByteArrayLen` returns: its bytes
stand at `pos`, the bytes around them are those of `buffer`. -/
theorem generateByteArrayLen_ok (buffer : List Nat) (pos l : Int) (hpos : 0 ≤ pos)
    (hcap : pos + (singleBytes l).length ≤ buffer.length) :
    generateByteArrayLen buffer pos l
      = some (buffer.take pos.toNat ++ singleBytes l
                ++ buffer.drop (pos.toNat + (singleBytes l).length),
              pos + (singleBytes l).length) := by
  rw [generateByteArrayLen_eq_storeAll, storeAll_ok buffer pos _ hpos hcap]

/-- With room for both prefixes, `generateByteArrayLenDouble` returns: its bytes
stand at `pos`, the bytes around them are those of `buffer`. -/
theorem generateByteArrayLenDouble_ok (buffer : List Nat) (pos l : Int) (hpos : 0 ≤ pos)
    (hcap : pos + (doubleBytes l).length ≤ buffer.length) :
    generateByteArrayLenDouble buffer pos l
      = some (buffer.take pos.toNat ++ doubleBytes l
                ++ buffer.drop (pos.toNat + (doubleBytes l).length),
              pos + (doubleBytes l).length) := by
  rw [generateByteArrayLenDouble_eq_storeAll, storeAll_ok buffer pos _ hpos hcap]

theorem singleBytes_length_eq_prefixLen (l : Int) (h : 2 ≤ l) :
    ((singleBytes l).length : Int) = generateRlpPrefixLen l := by
  rw [singleBytes_length]
  unfold generateRlpPrefixLen
  split_ifs <;> omega

theorem doubleBytes_length_eq_prefixLenDouble (l : Int) (firstByte : Nat)
    (h : 2 ≤ l ∨ 0x80 ≤ firstByte) :
    ((doubleBytes l).length : Int) = generateRlpPrefixLenDouble l firstByte := by
  rw [doubleBytes_length]
  unfold generateRlpPrefixLenDouble
  split_ifs <;> omega

/-! ## Length-prefix arithmetic: the contracts -/

/-- C1: for every payload length `l ≥ 0`, `generateRlpPrefixLen l` is 0 when
`l < 2`, 1 when `2 ≤ l ≤ 55`, 2 when `56 ≤ l ≤ 255`, 3 when `256 ≤ l ≤ 65535`,
and 4 otherwise. -/
theorem generateRlpPrefixLen_thresholds (l : Int) (_hl : 0 ≤ l) :
    generateRlpPrefixLen l =
      if l < 2 then 0
      else if 2 ≤ l ∧ l ≤ 55 then 1
      else if 56 ≤ l ∧ l ≤ 255 then 2
      else if 256 ≤ l ∧ l ≤ 65535 then 3
      else 4 := by
  unfold generateRlpPrefixLen
  split_ifs <;> omega

/-- C1, at the length 255: the hypothesis holds and the prefix has 2 bytes. -/
theorem generateRlpPrefixLen_thresholds_witness :
    (0 : Int) ≤ 255 ∧ generateRlpPrefixLen 255 = 2 :=
  ⟨by decide, (generateRlpPrefixLen_thresholds 255 (by decide)).trans (by decide)⟩

/-- C2, as stated, fails: at the length 2^24 the minimal big-endian
representation has four bytes, so the header of the claim is
`0xBB 01 00 00 00`, five bytes; the writer stores `0xBA 00 00 00` and returns
position 4. -/
theorem generateByteArrayLen_header_counterexample :
    (0 : Int) ≤ 16777216
      ∧ (0 : Int) + (rlpStringHeader 16777216).length ≤ (List.replicate 5 0).length
      ∧ rlpStringHeader 16777216 = [0xBB, 1, 0, 0, 0]
      ∧ generateByteArrayLen (List.replicate 5 0) 0 16777216 = some ([0xBA, 0, 0, 0, 0], 4)
      ∧ ¬ WritesStringHeader (List.replicate 5 0) 0 16777216 := by
  have hh : rlpStringHeader 16777216 = [0xBB, 1, 0, 0, 0] := by
    norm_num [rlpStringHeader]
  have hg : generateByteArrayLen (List.replicate 5 0) 0 16777216
      = some ([0xBA, 0, 0, 0, 0], 4) := by decide
  refine ⟨by decide, ?_, hh, hg, ?_⟩
  · rw [hh]; decide
  · have ht : Int.toNat 16777216 = 16777216 := rfl
    unfold WritesStringHeader
    rw [hg, ht, hh]
    decide

/-- C2 (amended): for every length `0 ≤ l < 2^24`, every position `pos ≥ 0` and
every buffer with room for the header from `pos` on, `generateByteArrayLen`
returns; it has written at `pos` the single byte `0x80 + l` when `l < 56`, and
the byte `0xB7 + n` followed by the `n` bytes of the minimal big-endian
representation of `l` when `l ≥ 56`; the rest of the buffer is unchanged and the
position returned is `pos` plus the number of bytes written. -/
theorem generateByteArrayLen_writes_header (buffer : List Nat) (pos l : Int)
    (hl0 : 0 ≤ l) (hl : l < 16777216) (hpos : 0 ≤ pos)
    (hcap : pos + (rlpStringHeader l.toNat).length ≤ buffer.length) :
    WritesStringHeader buffer pos l := by
  obtain ⟨n, rfl⟩ := Int.eq_ofNat_of_zero_le hl0
  have hn : n < 16777216 := by omega
  have e := singleBytes_eq_header n hn
  rw [Int.toNat_natCast] at hcap
  unfold WritesStringHeader
  rw [Int.toNat_natCast, ← e]
  rw [← e] at hcap
  exact generateByteArrayLen_ok buffer pos n hpos hcap

/-- C2 (amended), at the length 300 and position 1 of a buffer of six bytes. -/
theorem generateByteArrayLen_writes_header_witness :
    WritesStringHeader [7, 7, 7, 7, 7, 7] 1 300 :=
  generateByteArrayLen_writes_header [7, 7, 7, 7, 7, 7] 1 300 (by decide) (by decide)
    (by decide)
    (by
      have hh : rlpStringHeader 300 = [0xB9, 1, 44] := by norm_num [rlpStringHeader]
      show (1 : Int) + ((rlpStringHeader 300).length : Int) ≤ _
      rw [hh]
      decide)

theorem generateRlpPrefixLen_cases (l : Int) :
    (l < 2 ∧ generateRlpPrefixLen l = 0) ∨ (2 ≤ l ∧ l < 56 ∧ generateRlpPrefixLen l = 1)
      ∨ (56 ≤ l ∧ l < 256 ∧ generateRlpPrefixLen l = 2)
      ∨ (256 ≤ l ∧ l < 65536 ∧ generateRlpPrefixLen l = 3)
      ∨ (65536 ≤ l ∧ generateRlpPrefixLen l = 4) := by
  unfold generateRlpPrefixLen
  split_ifs <;> omega

theorem singleWrapCount_eq (l : Int) (firstByte : Nat) :
    singleWrapCount l firstByte =
      if l = 1 ∧ firstByte < 0x80 then 0
      else if l < 56 then 1 else if l < 256 then 2 else if l < 65536 then 3 else 4 := by
  unfold singleWrapCount
  rw [writtenLen_eq, singleBytes_length]

theorem wrappedFirstByte_of_raw (l : Int) (firstByte : Nat)
    (h : l = 1 ∧ firstByte < 0x80) : wrappedFirstByte l firstByte = firstByte := by
  unfold wrappedFirstByte
  rw [if_pos h]

/-- After a wrap that wrote a prefix the leading byte is at least `0x80`. -/
theorem wrappedFirstByte_ge (l : Int) (firstByte : Nat) (hl : 0 ≤ l)
    (h : ¬ (l = 1 ∧ firstByte < 0x80)) : 0x80 ≤ wrappedFirstByte l firstByte := by
  unfold wrappedFirstByte singleBytes
  rw [if_neg h]
  split_ifs
  · show 0x80 ≤ byte (128 + l)
    unfold byte
    omega
  · show 0x80 ≤ byte (183 + 1)
    decide
  · show 0x80 ≤ byte (183 + 2)
    decide
  · show 0x80 ≤ byte (183 + 3)
    decide

/-- C3, as stated, fails: for the empty payload (`l = 0`) and a first byte
`0x00` the single-wrap writer gives the prefix `0x80`, and the one byte `0x80`
wrapped once more gives the prefix `0x81`, two prefix bytes in all, while
`generateRlpPrefixLenDouble 0 0x00` is 0. -/
theorem generateRlpPrefixLenDouble_doubleWrap_counterexample :
    (0 : Int) ≤ 0 ∧ (0 : Int) ≤ 70000
      ∧ generateRlpPrefixLenDouble 0 0x00 = 0
      ∧ singleBytes 0 = [0x80]
      ∧ singleBytes 1 = [0x81]
      ∧ doubleWrapCount 0 0x00 = 2
      ∧ generateRlpPrefixLenDouble 0 0x00 ≠ doubleWrapCount 0 0x00 := by
  have hd : doubleWrapCount 0 0x00 = 2 := by
    unfold doubleWrapCount
    have h1 : singleWrapCount 0 0x00 = 1 := by
      rw [singleWrapCount_eq]; decide
    have h2 : wrappedFirstByte 0 0x00 = 0x80 := by decide
    rw [h1, h2, singleWrapCount_eq]
    decide
  refine ⟨by decide, by decide, by decide, by decide, by decide, hd, ?_⟩
  rw [hd]
  decide

/-- C3 (amended): for every length `l` in `[0, 70000]` and every `firstByte`,
except the empty payload with a `firstByte` below `0x80`,
`generateRlpPrefixLenDouble l firstByte` is the number of prefix bytes of
wrapping a payload of `l` bytes once and wrapping the result once more by the
single-wrap rule; for `l ≥ 2` it is
`generateRlpPrefixLen l + generateRlpPrefixLen (l + generateRlpPrefixLen l)`. -/
theorem generateRlpPrefixLenDouble_eq_doubleWrap (l : Int) (firstByte : Nat)
    (h0 : 0 ≤ l) (_h1 : l ≤ 70000) (hfb : 1 ≤ l ∨ 0x80 ≤ firstByte) :
    generateRlpPrefixLenDouble l firstByte = doubleWrapCount l firstByte
      ∧ (2 ≤ l → generateRlpPrefixLenDouble l firstByte
            = generateRlpPrefixLen l + generateRlpPrefixLen (l + generateRlpPrefixLen l)) := by
  constructor
  · unfold doubleWrapCount
    by_cases hc : l = 1 ∧ firstByte < 0x80
    · rw [wrappedFirstByte_of_raw l firstByte hc]
      have hk : singleWrapCount l firstByte = 0 := by
        rw [singleWrapCount_eq, if_pos hc]
      rw [hk, add_zero, hk]
      unfold generateRlpPrefixLenDouble
      rw [if_pos (by omega), if_neg (by omega)]
      rfl
    · have hw := wrappedFirstByte_ge l firstByte h0 hc
      have hc2 : ∀ m : Int, ¬ (m = 1 ∧ wrappedFirstByte l firstByte < 0x80) := by
        intro m hm
        omega
      rw [singleWrapCount_eq (l + singleWrapCount l firstByte), if_neg (hc2 _),
        singleWrapCount_eq, if_neg hc]
      unfold generateRlpPrefixLenDouble
      split_ifs <;> omega
  · intro h2
    have hk := generateRlpPrefixLen_cases l
    have hm := generateRlpPrefixLen_cases (l + generateRlpPrefixLen l)
    generalize generateRlpPrefixLen (l + generateRlpPrefixLen l) = m at hm ⊢
    generalize generateRlpPrefixLen l = k at hk hm ⊢
    unfold generateRlpPrefixLenDouble
    split_ifs <;> omega

/-- C3 (amended), at the length 255 with a leading byte `0x00` (five prefix
bytes), at the length 1 with the leading bytes `0x7F` and `0x80`, and for the
empty payload with a first byte `0x80`. -/
theorem generateRlpPrefixLenDouble_eq_doubleWrap_witness :
    (generateRlpPrefixLenDouble 255 0 = doubleWrapCount 255 0
      ∧ (2 ≤ (255 : Int) → generateRlpPrefixLenDouble 255 0
            = generateRlpPrefixLen 255 + generateRlpPrefixLen (255 + generateRlpPrefixLen 255)))
      ∧ generateRlpPrefixLenDouble 1 0x7F = doubleWrapCount 1 0x7F
      ∧ generateRlpPrefixLenDouble 1 0x80 = doubleWrapCount 1 0x80
      ∧ generateRlpPrefixLenDouble 0 0x80 = doubleWrapCount 0 0x80 :=
  ⟨generateRlpPrefixLenDouble_eq_doubleWrap 255 0 (by norm_num) (by norm_num) (by norm_num),
   (generateRlpPrefixLenDouble_eq_doubleWrap 1 0x7F (by norm_num) (by norm_num)
      (by norm_num)).1,
   (generateRlpPrefixLenDouble_eq_doubleWrap 1 0x80 (by norm_num) (by norm_num)
      (by norm_num)).1,
   (generateRlpPrefixLenDouble_eq_doubleWrap 0 0x80 (by norm_num) (by norm_num)
      (by norm_num)).1⟩

/-- C4, as stated, fails: for the length 1 and a first byte `0x00` the double
writer writes two bytes into a buffer of two bytes, while
`generateRlpPrefixLenDouble 1 0x00` is 0. -/
theorem generateByteArrayLenDouble_len_counterexample :
    generateByteArrayLenDouble [0, 0] 0 1 = some ([0x82, 0x81], 2)
      ∧ generateRlpPrefixLenDouble 1 0x00 = 0
      ∧ ¬ ∃ buffer, generateByteArrayLenDouble [0, 0] 0 1
            = some (buffer, 0 + generateRlpPrefixLenDouble 1 0x00) := by
  have hg : generateByteArrayLenDouble [0, 0] 0 1 = some ([0x82, 0x81], 2) := by decide
  refine ⟨hg, by decide, ?_⟩
  rintro ⟨buffer, hb⟩
  rw [hg] at hb
  rw [Option.some.injEq, Prod.mk.injEq] at hb
  exact absurd hb.2 (by decide)

/-- C4 (amended): for every length `l ≥ 0` and every `firstByte` with `l ≥ 2` or
`firstByte ≥ 0x80`, every position `pos ≥ 0` and every buffer with room from
`pos` on, `generateByteArrayLenDouble` returns and the number of bytes it has
written (the position returned minus `pos`) is
`generateRlpPrefixLenDouble l firstByte`. -/
theorem generateByteArrayLenDouble_len (buffer : List Nat) (pos l : Int) (firstByte : Nat)
    (_hl : 0 ≤ l) (hfb : 2 ≤ l ∨ 0x80 ≤ firstByte) (hpos : 0 ≤ pos)
    (hcap : pos + generateRlpPrefixLenDouble l firstByte ≤ buffer.length) :
    ∃ buffer1, generateByteArrayLenDouble buffer pos l
      = some (buffer1, pos + generateRlpPrefixLenDouble l firstByte) := by
  have e := doubleBytes_length_eq_prefixLenDouble l firstByte hfb
  rw [← e] at hcap ⊢
  exact ⟨_, generateByteArrayLenDouble_ok buffer pos l hpos hcap⟩

/-- C4 (amended), at the length 1 with a first byte `0x80`: two bytes. -/
theorem generateByteArrayLenDouble_len_witness :
    ∃ buffer1, generateByteArrayLenDouble [0, 0, 0] 1 1
      = some (buffer1, 1 + generateRlpPrefixLenDouble 1 0x80) :=
  generateByteArrayLenDouble_len [0, 0, 0] 1 1 0x80 (by decide) (by decide) (by decide)
    (by decide)

theorem byte_land255_natCast (n : Nat) : byte (Int.land (n : Int) 255) = byte (n : Int) := by
  rw [land255_natCast, byte_natCast, byte_natCast]
  omega

/-- The bytes of the double writer are the header of the once-wrapped length
followed by the header of the length. -/
theorem doubleBytes_eq_append (l : Int) (hl : 0 ≤ l) :
    doubleBytes l = singleBytes (l + writtenLen l) ++ singleBytes l := by
  obtain ⟨n, rfl⟩ := Int.eq_ofNat_of_zero_le hl
  have hw : writtenLen (n : Int)
      = if (n : Int) < 56 then 1 else if (n : Int) < 256 then 2
        else if (n : Int) < 65536 then 3 else 4 := by
    rw [writtenLen_eq, singleBytes_length]
  by_cases c1 : (n : Int) < 55
  · have hk : writtenLen (n : Int) = 1 := by rw [hw, if_pos (by omega)]
    rw [hk]
    unfold doubleBytes singleBytes
    rw [if_pos c1, if_pos (by omega), if_pos (by omega)]
    simp only [List.singleton_append, add_assoc]
  by_cases c2 : (n : Int) < 56
  · have hk : writtenLen (n : Int) = 1 := by rw [hw, if_pos (by omega)]
    rw [hk]
    unfold doubleBytes singleBytes
    rw [if_neg c1, if_pos c2, if_neg (by omega), if_pos (by omega), if_pos (by omega)]
    rfl
  by_cases c3 : (n : Int) < 254
  · have hk : writtenLen (n : Int) = 2 := by rw [hw, if_neg (by omega), if_pos (by omega)]
    rw [hk]
    unfold doubleBytes singleBytes
    rw [if_neg c1, if_neg c2, if_pos c3, if_neg (by omega), if_pos (by omega),
      if_neg (by omega), if_pos (by omega)]
    rfl
  by_cases c4 : (n : Int) < 256
  · have hk : writtenLen (n : Int) = 2 := by rw [hw, if_neg (by omega), if_pos (by omega)]
    rw [hk]
    unfold doubleBytes singleBytes
    rw [if_neg c1, if_neg c2, if_neg c3, if_pos c4, if_neg (by omega), if_neg (by omega),
      if_pos (by omega), if_neg (by omega), if_pos (by omega)]
    rfl
  by_cases c5 : (n : Int) < 65533
  · have hk : writtenLen (n : Int) = 3 := by rw [hw, if_neg (by omega), if_neg (by omega), if_pos (by omega)]
    rw [hk]
    unfold doubleBytes singleBytes
    rw [if_neg c1, if_neg c2, if_neg c3, if_neg c4, if_pos c5, if_neg (by omega),
      if_neg (by omega), if_pos (by omega), if_neg (by omega), if_neg (by omega),
      if_pos (by omega)]
    rfl
  by_cases c6 : (n : Int) < 65536
  · have hk : writtenLen (n : Int) = 3 := by rw [hw, if_neg (by omega), if_neg (by omega), if_pos (by omega)]
    rw [hk]
    unfold doubleBytes singleBytes
    rw [if_neg c1, if_neg c2, if_neg c3, if_neg c4, if_neg c5, if_pos c6, if_neg (by omega),
      if_neg (by omega), if_neg (by omega), if_neg (by omega), if_neg (by omega),
      if_pos (by omega)]
    rw [shiftRight_natCast n 8, byte_land255_natCast]
    rfl
  · have hk : writtenLen (n : Int) = 4 := by
      rw [hw, if_neg (by omega), if_neg (by omega), if_neg (by omega)]
    rw [hk]
    unfold doubleBytes singleBytes
    rw [if_neg c1, if_neg c2, if_neg c3, if_neg c4, if_neg c5, if_neg c6, if_neg (by omega),
      if_neg (by omega), if_neg (by omega), if_neg (by omega), if_neg (by omega),
      if_neg (by omega)]
    rfl

/-- C5: for every length `l ≥ 0`, every position `pos ≥ 0` and every buffer with
room from `pos` on, `generateByteArrayLenDouble buffer pos l` returns, and the
buffer and the position it returns are those of `generateByteArrayLen` called
at `pos` with `l + k` and then at the position returned with `l`, where `k` is
the number of prefix bytes that `generateByteArrayLen` writes for `l`. -/
theorem generateByteArrayLenDouble_eq_twice (buffer : List Nat) (pos l : Int)
    (hl : 0 ≤ l) (hpos : 0 ≤ pos) (hcap : pos + writtenLenDouble l ≤ buffer.length) :
    ∃ buffer2 pos2,
      generateByteArrayLenDouble buffer pos l = some (buffer2, pos2)
        ∧ ((generateByteArrayLen buffer pos (l + writtenLen l)).bind
            fun r => generateByteArrayLen r.1 r.2 l) = some (buffer2, pos2) := by
  rw [writtenLenDouble_eq] at hcap
  have hd := generateByteArrayLenDouble_ok buffer pos l hpos hcap
  refine ⟨_, _, hd, ?_⟩
  have hs : ((generateByteArrayLen buffer pos (l + writtenLen l)).bind
        fun r => generateByteArrayLen r.1 r.2 l)
      = storeAll buffer pos (singleBytes (l + writtenLen l) ++ singleBytes l) := by
    rw [storeAll_append, generateByteArrayLen_eq_storeAll]
    congr 1
    funext r
    rw [generateByteArrayLen_eq_storeAll]
  rw [hs, ← doubleBytes_eq_append l hl, ← generateByteArrayLenDouble_eq_storeAll]
  exact hd

/-- C5, at the length 255 and position 1 of a buffer of seven bytes. -/
theorem generateByteArrayLenDouble_eq_twice_witness :
    ∃ buffer2 pos2,
      generateByteArrayLenDouble [0, 0, 0, 0, 0, 0, 0] 1 255 = some (buffer2, pos2)
        ∧ ((generateByteArrayLen [0, 0, 0, 0, 0, 0, 0] 1 (255 + writtenLen 255)).bind
            fun r => generateByteArrayLen r.1 r.2 255) = some (buffer2, pos2) :=
  generateByteArrayLenDouble_eq_twice [0, 0, 0, 0, 0, 0, 0] 1 255 (by decide) (by decide)
    (by decide)

/-- C6, as stated, fails: for the length 0 the writer writes the one byte
`0x80` and returns position 1, while `generateRlpPrefixLen 0` is 0. -/
theorem generateRlpPrefixLen_written_counterexample :
    (0 : Int) ≤ 0 ∧ (0 : Int) ≤ 70000
      ∧ generateByteArrayLen [0] 0 0 = some ([0x80], 1)
      ∧ generateRlpPrefixLen 0 = 0
      ∧ ¬ ∃ buffer, generateByteArrayLen [0] 0 0
            = some (buffer, 0 + generateRlpPrefixLen 0) := by
  have hg : generateByteArrayLen [0] 0 0 = some ([0x80], 1) := by decide
  refine ⟨by decide, by decide, hg, by decide, ?_⟩
  rintro ⟨buffer, hb⟩
  rw [hg] at hb
  rw [Option.some.injEq, Prod.mk.injEq] at hb
  exact absurd hb.2 (by decide)

/-- C6 (amended): for every length `l` in `[2, 70000]`, every position
`pos ≥ 0` and every buffer with room from `pos` on, `generateByteArrayLen`
returns and the number of bytes it has written (the position returned minus
`pos`) is `generateRlpPrefixLen l`. -/
theorem generateRlpPrefixLen_written (buffer : List Nat) (pos l : Int)
    (h2 : 2 ≤ l) (_h : l ≤ 70000) (hpos : 0 ≤ pos)
    (hcap : pos + generateRlpPrefixLen l ≤ buffer.length) :
    ∃ buffer1, generateByteArrayLen buffer pos l
      = some (buffer1, pos + generateRlpPrefixLen l) := by
  have e := singleBytes_length_eq_prefixLen l h2
  rw [← e] at hcap ⊢
  exact ⟨_, generateByteArrayLen_ok buffer pos l hpos hcap⟩

/-- C6 (amended), at the length 70000 and position 2 of a buffer of six bytes. -/
theorem generateRlpPrefixLen_written_witness :
    ∃ buffer1, generateByteArrayLen [0, 0, 0, 0, 0, 0] 2 70000
      = some (buffer1, 2 + generateRlpPrefixLen 70000) :=
  generateRlpPrefixLen_written [0, 0, 0, 0, 0, 0] 2 70000 (by decide) (by decide)
    (by decide) (by decide)

theorem bigEndianValue_reverse (ds : List Nat) :
    bigEndianValue ds.reverse = Nat.ofDigits 256 ds := by
  induction ds with
  | nil => rfl
  | cons d ds ih =>
    unfold bigEndianValue at ih ⊢
    rw [List.reverse_cons, List.foldl_append, ih, Nat.ofDigits_cons]
    simp only [List.foldl_cons, List.foldl_nil]
    omega

/-- Reading back the header of a length below 2^24 gives the length, whatever
follows the header. -/
theorem readStringHeader_header (n : Nat) (hn : n < 16777216) (rest : List Nat) :
    readStringHeader (rlpStringHeader n ++ rest) = some n := by
  unfold rlpStringHeader
  by_cases h1 : n < 56
  · rw [if_pos h1]
    have e : 0x80 + n - 0x80 = n := by omega
    rw [List.singleton_append, readStringHeader, if_pos (by omega), e]
  · rw [if_neg h1]
    have hlen1 : 0 < (Nat.digits 256 n).length := by
      apply List.length_pos.mpr
      exact Nat.digits_ne_nil_iff_ne_zero.mpr (by omega)
    have hlen3 : (Nat.digits 256 n).length ≤ 3 := by
      have hs := singleBytes_length (n : Int)
      rw [singleBytes_eq_header n hn] at hs
      unfold rlpStringHeader at hs
      rw [if_neg h1, List.length_cons, List.length_reverse] at hs
      split_ifs at hs <;> omega
    rw [List.cons_append, readStringHeader, if_neg (by omega), if_pos (by omega)]
    have e : 0xB7 + (Nat.digits 256 n).length - 0xB7 = (Nat.digits 256 n).reverse.length := by
      rw [List.length_reverse]; omega
    rw [e, if_pos (by rw [List.length_append]; omega), List.take_left,
      bigEndianValue_reverse, Nat.ofDigits_digits]

theorem store_some (buffer : List Nat) (pos : Int) (b : Nat) (buffer1 : List Nat)
    (h : store buffer pos b = some buffer1) :
    0 ≤ pos ∧ pos < buffer.length ∧ buffer1.length = buffer.length := by
  unfold store at h
  split_ifs at h with hc
  rw [Option.some.injEq] at h
  subst h
  exact ⟨hc.1, hc.2, List.length_set _ _ _⟩

/-- Stores that all succeed had room: the converse of `storeAll_ok`. -/
theorem storeAll_some (bs : List Nat) : ∀ (buffer : List Nat) (pos : Int)
    (r : List Nat × Int), bs ≠ [] → storeAll buffer pos bs = some r →
    0 ≤ pos ∧ pos + bs.length ≤ buffer.length := by
  induction bs with
  | nil => intro _ _ _ h; exact absurd rfl h
  | cons b bs ih =>
    intro buffer pos r _ h
    rw [storeAll] at h
    cases hs : store buffer pos b with
    | none => rw [hs] at h; exact absurd h (by simp)
    | some buffer1 =>
      rw [hs, Option.some_bind] at h
      obtain ⟨h0, h1, h2⟩ := store_some buffer pos b buffer1 hs
      by_cases hb : bs = []
      · subst hb
        simp only [List.length_singleton, Nat.cast_one]
        omega
      · obtain ⟨_, h4⟩ := ih buffer1 (pos + 1) r hb h
        simp only [List.length_cons, Nat.cast_add, Nat.cast_one]
        omega

theorem singleBytes_ne_nil (l : Int) : singleBytes l ≠ [] := by
  intro h
  have hl := singleBytes_length l
  rw [h] at hl
  simp only [List.length_nil, Nat.cast_zero] at hl
  split_ifs at hl <;> omega

/-- The bytes in `[pos, pos + n)` of a buffer that carries `bs` at `pos`. -/
theorem writtenBytes_of_append (buffer : List Nat) (pos : Int) (bs rest : List Nat)
    (hcap : pos ≤ buffer.length) :
    writtenBytes (buffer.take pos.toNat ++ bs ++ rest) pos (bs.length : Int) = bs := by
  unfold writtenBytes
  have hl : (buffer.take pos.toNat).length = pos.toNat := by
    rw [List.length_take]; omega
  rw [List.append_assoc, List.drop_left' hl, Int.toNat_natCast, List.take_left]

/-- A call of `generateByteArrayLen` that returns has left the header of `l`
in `[pos, pos + writtenLen l)`. -/
theorem generateByteArrayLen_some_written (buffer : List Nat) (pos l : Int)
    (r : List Nat × Int) (h : generateByteArrayLen buffer pos l = some r) :
    r.2 = pos + writtenLen l ∧ writtenBytes r.1 pos (writtenLen l) = singleBytes l := by
  have h2 := h
  rw [generateByteArrayLen_eq_storeAll] at h2
  obtain ⟨hpos, hcap⟩ := storeAll_some _ buffer pos r (singleBytes_ne_nil l) h2
  rw [generateByteArrayLen_ok buffer pos l hpos hcap, Option.some.injEq] at h
  subst h
  rw [writtenLen_eq]
  exact ⟨rfl, writtenBytes_of_append buffer pos _ _ (by omega)⟩

/-- C7: for every length `l` in `[0, 70000]`, every position `pos ≥ 0` and every
buffer with room from `pos` on, `generateByteArrayLen` returns and reading the
bytes it has written as an RLP string-length header gives `l` back; hence a
call for another length of that range that writes the same bytes is a call for
the same length. -/
theorem generateByteArrayLen_roundtrip (buffer : List Nat) (pos l : Int)
    (h0 : 0 ≤ l) (h1 : l ≤ 70000) (hpos : 0 ≤ pos)
    (hcap : pos + writtenLen l ≤ buffer.length) :
    ∃ buffer1, generateByteArrayLen buffer pos l = some (buffer1, pos + writtenLen l)
      ∧ readStringHeader (writtenBytes buffer1 pos (writtenLen l)) = some l.toNat
      ∧ ∀ (l2 : Int) (buffer2 : List Nat), 0 ≤ l2 → l2 ≤ 70000 →
          generateByteArrayLen buffer pos l2 = some (buffer2, pos + writtenLen l2) →
          writtenBytes buffer2 pos (writtenLen l2) = writtenBytes buffer1 pos (writtenLen l) →
          l2 = l := by
  have hread : ∀ (m : Int), 0 ≤ m → m ≤ 70000 →
      readStringHeader (singleBytes m) = some m.toNat := by
    intro m hm0 hm1
    obtain ⟨n, rfl⟩ := Int.eq_ofNat_of_zero_le hm0
    have hn : n < 16777216 := by omega
    have hr := readStringHeader_header n hn []
    rw [List.append_nil] at hr
    rw [singleBytes_eq_header n hn, Int.toNat_natCast, hr]
  rw [writtenLen_eq] at hcap
  have hg := generateByteArrayLen_ok buffer pos l hpos hcap
  rw [← writtenLen_eq] at hg
  obtain ⟨_, hw⟩ := generateByteArrayLen_some_written buffer pos l _ hg
  refine ⟨_, hg, ?_, ?_⟩
  · rw [hw]; exact hread l h0 h1
  · intro l2 buffer2 h20 h21 hg2 heq
    obtain ⟨_, hw2⟩ := generateByteArrayLen_some_written buffer pos l2 _ hg2
    rw [hw, hw2] at heq
    have e1 := hread l h0 h1
    have e2 := hread l2 h20 h21
    rw [heq, e1, Option.some.injEq] at e2
    omega

/-- C7, at the length 70000 and position 1 of a buffer of five bytes. -/
theorem generateByteArrayLen_roundtrip_witness :
    ∃ buffer1, generateByteArrayLen [9, 9, 9, 9, 9] 1 70000
        = some (buffer1, 1 + writtenLen 70000)
      ∧ readStringHeader (writtenBytes buffer1 1 (writtenLen 70000)) = some (70000 : Int).toNat
      ∧ ∀ (l2 : Int) (buffer2 : List Nat), 0 ≤ l2 → l2 ≤ 70000 →
          generateByteArrayLen [9, 9, 9, 9, 9] 1 l2 = some (buffer2, 1 + writtenLen l2) →
          writtenBytes buffer2 1 (writtenLen l2) = writtenBytes buffer1 1 (writtenLen 70000) →
          l2 = 70000 :=
  generateByteArrayLen_roundtrip [9, 9, 9, 9, 9] 1 70000 (by decide) (by decide) (by decide)
    (by decide)

end rlphacks

/-! ## The block witness: lemmas and contracts -/

namespace trie

theorem newOperand_eq_none_iff (ops : Opcodes) (b : Nat) :
    newOperand ops b = none ↔ b ∉ ops.all := by
  unfold newOperand Opcodes.all
  simp only [List.mem_cons, List.mem_singleton, not_or, List.mem_nil_iff, or_false]
  split_ifs <;> simp_all

theorem newOperand_of_opcodeOf (ops : Opcodes) (op : WitnessOperand) (opcode : Nat)
    (h : opcodeOf ops op = some opcode) : ∃ fresh, newOperand ops opcode = some fresh := by
  have hm : opcode ∈ ops.all := by
    unfold Opcodes.all
    cases op <;> simp only [opcodeOf, Option.some.injEq, reduceCtorEq] at h <;> subst h <;> simp
  cases hn : newOperand ops opcode with
  | none => exact absurd hm ((newOperand_eq_none_iff ops opcode).mp hn)
  | some fresh => exact ⟨fresh, rfl⟩

/-- A read that delivers a byte without an error: the byte is the head of the
stream, the stream after it is the tail, and the byte is not one that the
stream reports together with its error. -/
theorem Reader.Read_eq_byte (input rest : Reader) (b : Nat) (h : input.Read = .Byte b rest) :
    input.data = b :: rest.data ∧ rest.fail = input.fail
      ∧ rest.failWithLast = input.failWithLast
      ∧ ¬ (rest.data = [] ∧ input.failWithLast = true) := by
  unfold Reader.Read at h
  cases hd : input.data with
  | nil => rw [hd] at h; simp at h
  | cons b1 tail =>
    rw [hd] at h
    simp only at h
    split_ifs at h with hc
    simp only [ReadResult.Byte.injEq] at h
    obtain ⟨h1, h2⟩ := h
    subst h1
    subst h2
    exact ⟨rfl, rfl, rfl, hc⟩

/-- On a stream that does not report its error with the byte at hand, the read
delivers that byte without an error. -/
theorem Reader.Read_byte (b : Nat) (rest : List Nat) (fail : Error) (withLast : Bool)
    (h : ¬ (rest = [] ∧ withLast = true)) :
    Reader.Read ⟨b :: rest, fail, withLast⟩ = .Byte b ⟨rest, fail, withLast⟩ := by
  simp only [Reader.Read]
  rw [if_neg h]

/-- An iteration that appends an operand consumes at least the opcode byte and
keeps the error of the stream. -/
theorem readOperand_progress (c : OperandCodec) (input input1 : Reader) (op : WitnessOperand)
    (h : readOperand c input = some (op, input1)) :
    input1.data.length < input.data.length ∧ input1.fail = input.fail := by
  unfold readOperand at h
  cases hr : input.Read with
  | Err e => rw [hr] at h; simp at h
  | ByteErr b e rest => rw [hr] at h; simp at h
  | Byte b rest =>
    obtain ⟨hd, hf, _, _⟩ := Reader.Read_eq_byte input rest b hr
    rw [hr] at h
    simp only at h
    cases hn : newOperand c.ops b with
    | none => rw [hn] at h; simp at h
    | some fresh =>
      rw [hn] at h
      simp only at h
      cases hl : c.LoadFrom fresh rest with
      | error e => rw [hl] at h; simp at h
      | ok r =>
        obtain ⟨op1, n⟩ := r
        rw [hl] at h
        simp only [Option.some.injEq, Prod.mk.injEq] at h
        obtain ⟨_, h2⟩ := h
        subst h2
        simp only [List.length_drop, hd, List.length_cons]
        exact ⟨by omega, hf⟩

/-- An iteration that appends an operand is one step of the loop. -/
theorem readOperands_step (c : OperandCodec) (input input1 : Reader) (op : WitnessOperand)
    (h : readOperand c input = some (op, input1)) (fuel : Nat) (acc : List WitnessOperand) :
    readOperands c (fuel + 1) input acc = readOperands c fuel input1 (acc ++ [op]) := by
  unfold readOperand at h
  rw [readOperands]
  cases hr : input.Read with
  | Err e => rw [hr] at h; simp at h
  | ByteErr b e rest => rw [hr] at h; simp at h
  | Byte b input2 =>
    rw [hr] at h
    simp only at h ⊢
    cases hn : newOperand c.ops b with
    | none => rw [hn] at h; simp at h
    | some fresh =>
      rw [hn] at h
      simp only at h ⊢
      cases hl : c.LoadFrom fresh input2 with
      | error e => rw [hl] at h; simp at h
      | ok r =>
        obtain ⟨op1, n⟩ := r
        rw [hl] at h
        simp only [Option.some.injEq, Prod.mk.injEq] at h ⊢
        obtain ⟨h1, h2⟩ := h
        subst h1
        subst h2
        rfl

/-- The loop follows the iterations up to an opcode boundary. -/
theorem readOperands_boundary (c : OperandCodec) :
    ∀ (k : Nat) (input input1 : Reader) (ops : List WitnessOperand),
      boundaryAfter c k input = some (ops, input1) →
      (input1.data.length + k ≤ input.data.length ∧ input1.fail = input.fail)
        ∧ ∀ (fuel : Nat) (acc : List WitnessOperand),
            readOperands c (fuel + k) input acc = readOperands c fuel input1 (acc ++ ops) := by
  intro k
  induction k with
  | zero =>
    intro input input1 ops h
    simp only [boundaryAfter, Option.some.injEq, Prod.mk.injEq] at h
    obtain ⟨h1, h2⟩ := h
    subst h1
    subst h2
    simp
  | succ k ih =>
    intro input input1 ops h
    rw [boundaryAfter] at h
    cases hr : readOperand c input with
    | none => rw [hr] at h; simp at h
    | some r =>
      obtain ⟨op, input2⟩ := r
      rw [hr] at h
      simp only at h
      cases hb : boundaryAfter c k input2 with
      | none => rw [hb] at h; simp at h
      | some r2 =>
        obtain ⟨ops2, input3⟩ := r2
        rw [hb] at h
        simp only [Option.some.injEq, Prod.mk.injEq] at h
        obtain ⟨h1, h2⟩ := h
        subst h1
        subst h2
        obtain ⟨hp1, hp2⟩ := readOperand_progress c input input2 op hr
        obtain ⟨⟨hq1, hq2⟩, hq3⟩ := ih input2 input3 ops2 hb
        refine ⟨⟨by omega, by rw [hq2, hp2]⟩, ?_⟩
        intro fuel acc
        have e : fuel + (k + 1) = (fuel + k) + 1 := by omega
        rw [e, readOperands_step c input input2 op hr, hq3, List.append_assoc]
        rfl

/-- At the end of a stream that simply ends, the loop returns the operands. -/
theorem readOperands_eof (c : OperandCodec) (fuel : Nat) (withLast : Bool)
    (acc : List WitnessOperand) :
    readOperands c (fuel + 1) ⟨[], .EOF, withLast⟩ acc = .ok acc := by
  rw [readOperands]
  rfl

/-- At an opcode boundary, a byte that is no opcode and that the stream
delivers without an error is an error. -/
theorem readOperands_unknown (c : OperandCodec) (fuel : Nat) (b : Nat) (rest : List Nat)
    (fail : Error) (withLast : Bool) (acc : List WitnessOperand)
    (hplain : ¬ (rest = [] ∧ withLast = true)) (h : newOperand c.ops b = none) :
    readOperands c (fuel + 1) ⟨b :: rest, fail, withLast⟩ acc
      = .error (.UnexpectedOpcode b) := by
  rw [readOperands, Reader.Read_byte b rest fail withLast hplain]
  simp only
  rw [h]

theorem writeOperands_roundTrips (c : OperandCodec) :
    ∀ (ops : List WitnessOperand) (out : List Nat), (∀ op ∈ ops, RoundTrips c op) →
      writeOperands c ops out = (out ++ encodeOperands c ops, none) := by
  intro ops
  induction ops with
  | nil => intro out _; simp [writeOperands, encodeOperands]
  | cons op ops ih =>
    intro out h
    obtain ⟨opcode, fields, _, hw, _⟩ := h op (List.mem_cons_self _ _)
    have ih2 := ih (out ++ (opcode :: fields)) fun o ho => h o (List.mem_cons_of_mem _ ho)
    rw [writeOperands, hw]
    simp only
    rw [ih2]
    simp only [encodeOperands, List.flatMap_cons, hw, List.append_assoc]

theorem readOperand_roundTrips (c : OperandCodec) (op : WitnessOperand) (rest : List Nat)
    (fail : Error) (h : RoundTrips c op) :
    readOperand c ⟨(c.WriteTo op).1 ++ rest, fail, false⟩ = some (op, ⟨rest, fail, false⟩) := by
  obtain ⟨opcode, fields, ho, hw, hl⟩ := h
  obtain ⟨fresh, hf⟩ := newOperand_of_opcodeOf c.ops op opcode ho
  rw [hw]
  simp only [readOperand, List.cons_append]
  rw [Reader.Read_byte opcode (fields ++ rest) fail false (by simp)]
  simp only
  rw [hf]
  simp only
  rw [hl fresh hf rest fail]
  simp

theorem boundaryAfter_roundTrips (c : OperandCodec) :
    ∀ (ops : List WitnessOperand) (rest : List Nat) (fail : Error),
      (∀ op ∈ ops, RoundTrips c op) →
      boundaryAfter c ops.length ⟨encodeOperands c ops ++ rest, fail, false⟩
        = some (ops, ⟨rest, fail, false⟩) := by
  intro ops
  induction ops with
  | nil => intro rest fail _; simp [boundaryAfter, encodeOperands]
  | cons op ops ih =>
    intro rest fail h
    have h1 := readOperand_roundTrips c op (encodeOperands c ops ++ rest) fail
      (h op (List.mem_cons_self _ _))
    have h2 := ih rest fail fun o ho => h o (List.mem_cons_of_mem _ ho)
    have e : encodeOperands c (op :: ops) ++ rest
        = (c.WriteTo op).1 ++ (encodeOperands c ops ++ rest) := by
      simp only [encodeOperands, List.flatMap_cons, List.append_assoc]
    rw [List.length_cons, boundaryAfter, e, h1]
    simp only
    rw [h2]

theorem diffOperand_self (i : Nat) (op : WitnessOperand) (operands2 : List WitnessOperand)
    (opcode : Nat) (ops : Opcodes) (hk : opcodeOf ops op = some opcode)
    (hi : operands2[i]? = some op) : diffOperand i op operands2 = ([], none) := by
  cases op <;> simp [diffOperand, hi, opcodeOf] at hk ⊢

theorem diffLoop_self (ops : Opcodes) : ∀ (suffix done : List WitnessOperand)
    (output : List DiffLine), (∀ op ∈ suffix, ∃ opcode, opcodeOf ops op = some opcode) →
    diffLoop (done ++ suffix) done.length suffix output = (output, none) := by
  intro suffix
  induction suffix with
  | nil => intro done output _; rfl
  | cons op suffix ih =>
    intro done output h
    obtain ⟨opcode, hk⟩ := h op (List.mem_cons_self _ _)
    have hi : (done ++ op :: suffix)[done.length]? = some op := by
      rw [List.getElem?_append_right (le_refl _), Nat.sub_self, List.getElem?_cons_zero]
    have ih2 := ih (done ++ [op]) output fun o ho => h o (List.mem_cons_of_mem _ ho)
    rw [diffLoop, diffOperand_self done.length op _ opcode ops hk hi]
    simp only [List.append_nil]
    simp only [List.length_append, List.length_singleton, List.append_assoc,
      List.singleton_append] at ih2
    exact ih2

/-- C8: for every operand list `ops` each of whose operands has a
`WriteTo`/`LoadFrom` pair that round-trips, `NewWitness(ops).WriteTo` succeeds,
and `NewWitnessFromReader` on the bytes written succeeds with a witness of
version `WitnessVersion` and the operands `ops` in their order, so that
`WriteDiff` between the witness written and the witness read writes nothing
and ends without a panic. -/
theorem witness_roundtrip (c : OperandCodec) (ops : List WitnessOperand) (trace : Bool)
    (h : ∀ op ∈ ops, RoundTrips c op) :
    ∃ bytes w, (NewWitness ops).WriteTo c [] = (bytes, none)
      ∧ NewWitnessFromReader c ⟨bytes, .EOF, false⟩ trace = .ok w
      ∧ w.Header.Version = WitnessVersion
      ∧ w.Operands = ops
      ∧ (NewWitness ops).WriteDiff w [] = ([], none) := by
  have hw : (NewWitness ops).WriteTo c []
      = (WitnessVersion :: encodeOperands c ops, none) := by
    simp only [Witness.WriteTo, WitnessHeader.WriteTo, NewWitness, defaultWitnessHeader,
      List.nil_append]
    rw [writeOperands_roundTrips c ops _ h]
    rfl
  have hb := boundaryAfter_roundTrips c ops [] .EOF h
  rw [List.append_nil] at hb
  obtain ⟨_, hloop⟩ := readOperands_boundary c ops.length _ _ ops hb
  have hlen : ops.length ≤ (encodeOperands c ops).length := by
    have := (readOperands_boundary c ops.length _ _ ops hb).1.1
    simpa using this
  have hr : NewWitnessFromReader c ⟨WitnessVersion :: encodeOperands c ops, .EOF, false⟩ trace
      = .ok ⟨⟨WitnessVersion⟩, ops⟩ := by
    simp only [NewWitnessFromReader, WitnessHeader.LoadFrom]
    rw [Reader.Read_byte WitnessVersion (encodeOperands c ops) .EOF false (by simp)]
    simp only [ne_eq, not_true_eq_false, if_false]
    have e : (encodeOperands c ops).length + 1
        = ((encodeOperands c ops).length - ops.length + 1) + ops.length := by omega
    rw [e, hloop, readOperands_eof]
    try rfl
  refine ⟨_, _, hw, hr, rfl, rfl, ?_⟩
  have hd := diffLoop_self c.ops ops [] []
    fun op ho => (h op ho).imp fun opcode hx => hx.choose_spec.1
  simp only [Witness.WriteDiff, NewWitness, ne_eq, not_true_eq_false, if_false]
  exact hd

/-- C9: every stream whose first byte is not `WitnessVersion` gives an error and
no witness, whatever bytes follow: the version error, or, when the stream
reports its own error together with that byte, the error of the stream. -/
theorem NewWitnessFromReader_version (c : OperandCodec) (b : Nat) (rest : List Nat)
    (fail : Error) (withLast : Bool) (trace : Bool) (h : b ≠ WitnessVersion) :
    NewWitnessFromReader c ⟨b :: rest, fail, withLast⟩ trace
      = .error (if rest = [] ∧ withLast = true then fail
                else .UnexpectedVersion WitnessVersion b) := by
  by_cases hc : rest = [] ∧ withLast = true
  · simp only [NewWitnessFromReader, WitnessHeader.LoadFrom, Reader.Read]
    rw [if_pos hc, if_pos hc]
  · simp only [NewWitnessFromReader, WitnessHeader.LoadFrom]
    rw [Reader.Read_byte b rest fail withLast hc]
    simp only
    rw [if_pos h, if_neg hc]

/-- For every stream with a valid header in which, at an opcode boundary (after
`k` operands read), the next byte `b` is none of the seven opcodes and is
delivered without an error, `NewWitnessFromReader` gives the error of the
unknown opcode `b` and no witness. -/
theorem NewWitnessFromReader_unknown_opcode (c : OperandCodec) (data : List Nat)
    (fail : Error) (withLast : Bool) (k : Nat) (ops : List WitnessOperand) (b : Nat)
    (rest : List Nat) (fail1 : Error) (withLast1 : Bool) (trace : Bool)
    (hb : boundaryAfter c k ⟨data, fail, withLast⟩
      = some (ops, ⟨b :: rest, fail1, withLast1⟩))
    (hplain : ¬ (rest = [] ∧ withLast1 = true))
    (hop : b ∉ c.ops.all) :
    NewWitnessFromReader c ⟨WitnessVersion :: data, fail, withLast⟩ trace
      = .error (.UnexpectedOpcode b) := by
  obtain ⟨⟨hlen, _⟩, hloop⟩ := readOperands_boundary c k _ _ ops hb
  simp only [List.length_cons] at hlen
  have hn := (newOperand_eq_none_iff c.ops b).mpr hop
  have hdata : data ≠ [] := by
    intro hd
    rw [hd] at hlen
    simp at hlen
  have e : data.length + 1 = (data.length - k + 1) + k := by omega
  have e2 : data.length - k + 1 = (data.length - k) + 1 := rfl
  simp only [NewWitnessFromReader, WitnessHeader.LoadFrom]
  rw [Reader.Read_byte WitnessVersion data fail withLast (fun hc => hdata hc.1)]
  simp only [ne_eq, not_true_eq_false, if_false]
  rw [e, hloop, e2, readOperands_unknown c _ b rest fail1 withLast1 _ hplain hn]

/-- A byte that the stream delivers together with `io.EOF` right after the
header ends the loop: the witness has no operands and there is no error,
whatever the byte and the operand codec are. -/
theorem NewWitnessFromReader_byte_with_eof (c : OperandCodec) (b : Nat) (trace : Bool) :
    NewWitnessFromReader c ⟨[WitnessVersion, b], .EOF, true⟩ trace
      = .ok ⟨⟨WitnessVersion⟩, []⟩ := rfl

/-- C10 fails on the code: on the stream `01 09` of a reader that reports
`io.EOF` together with its last byte, the read of the opcode delivers `09`,
none of the opcodes of the demonstration codec, together with `io.EOF`; the
loop tests the error first and ends, so `NewWitnessFromReader` returns a
witness without operands and no error: the byte is skipped.  On a reader that
reports `io.EOF` after its last byte the same stream gives the error of the
unknown opcode. -/
theorem NewWitnessFromReader_skips_unknown_opcode :
    9 ∉ demoCodec.ops.all
      ∧ NewWitnessFromReader demoCodec ⟨[1, 9], .EOF, true⟩ false = .ok ⟨⟨1⟩, []⟩
      ∧ NewWitnessFromReader demoCodec ⟨[1, 9], .EOF, false⟩ false
          = .error (.UnexpectedOpcode 9) :=
  ⟨by decide, rfl, rfl⟩

theorem demoOperands_roundTrips : ∀ op ∈ demoOperands, RoundTrips demoCodec op := by
  intro op hop
  simp only [demoOperands, List.mem_cons, List.mem_singleton, List.mem_nil_iff,
    or_false] at hop
  rcases hop with rfl | rfl | rfl | rfl | rfl | rfl | rfl
  · refine ⟨2, [5], rfl, rfl, ?_⟩
    intro fresh hf rest fail
    cases hf
    simp [demoCodec, demoLoadFrom, demoReadBytes]
  · refine ⟨3, [2, 1, 2], rfl, rfl, ?_⟩
    intro fresh hf rest fail
    cases hf
    simp [demoCodec, demoLoadFrom, demoReadBytes]
  · refine ⟨0, [1, 3, 2, 4, 5], rfl, rfl, ?_⟩
    intro fresh hf rest fail
    cases hf
    simp [demoCodec, demoLoadFrom, demoReadBytes]
  · refine ⟨5, [1, 6, 7, 1, 8, 1, 0], rfl, rfl, ?_⟩
    intro fresh hf rest fail
    cases hf
    simp [demoCodec, demoLoadFrom, demoReadBytes]
  · refine ⟨4, [1, 9], rfl, rfl, ?_⟩
    intro fresh hf rest fail
    cases hf
    simp [demoCodec, demoLoadFrom, demoReadBytes]
  · refine ⟨6, [], rfl, rfl, ?_⟩
    intro fresh hf rest fail
    cases hf
    simp [demoCodec, demoLoadFrom, demoReadBytes]
  · refine ⟨1, [2, 10, 11], rfl, rfl, ?_⟩
    intro fresh hf rest fail
    cases hf
    simp [demoCodec, demoLoadFrom, demoReadBytes]

/-- C8, for the demonstration codec and an operand list with each of the seven
variants. -/
theorem witness_roundtrip_witness :
    (∀ op ∈ demoOperands, RoundTrips demoCodec op)
      ∧ ∃ bytes w, (NewWitness demoOperands).WriteTo demoCodec [] = (bytes, none)
          ∧ NewWitnessFromReader demoCodec ⟨bytes, .EOF, false⟩ false = .ok w
          ∧ w.Header.Version = WitnessVersion
          ∧ w.Operands = demoOperands
          ∧ (NewWitness demoOperands).WriteDiff w [] = ([], none) :=
  ⟨demoOperands_roundTrips,
    witness_roundtrip demoCodec demoOperands false demoOperands_roundTrips⟩

/-- C9, for a stream of version 2 followed by two well-formed operands, and for
the one byte `02` that the stream delivers together with `io.EOF`. -/
theorem NewWitnessFromReader_version_witness :
    2 ≠ WitnessVersion
      ∧ NewWitnessFromReader demoCodec ⟨[2, 2, 5, 6], .EOF, false⟩ false
          = .error (.UnexpectedVersion WitnessVersion 2)
      ∧ NewWitnessFromReader demoCodec ⟨[2], .EOF, true⟩ false = .error .EOF :=
  ⟨by decide,
   (NewWitnessFromReader_version demoCodec 2 [2, 5, 6] .EOF false false (by decide)).trans
      rfl,
   (NewWitnessFromReader_version demoCodec 2 [] .EOF true false (by decide)).trans rfl⟩

end trie

/-! ## Length-prefix arithmetic: bounds and frame of the writers -/

namespace rlphacks

/-- C17: for every buffer, every position `pos ≥ 0` and every length `l ≥ 0`,
`generateByteArrayLen` completes without a bounds error if and only if the
buffer has room for the whole prefix, `pos + n ≤ len(buffer)` with `n` the
number of prefix bytes for `l`; with room it returns `pos + n`, with less room
it fails with the bounds error and returns no shortened prefix. -/
theorem generateByteArrayLen_bounds (buffer : List Nat) (pos l : Int)
    (hpos : 0 ≤ pos) (_hl : 0 ≤ l) :
    ((generateByteArrayLen buffer pos l).isSome
        ↔ pos + prefixBytesNeeded l ≤ buffer.length)
      ∧ (pos + prefixBytesNeeded l ≤ buffer.length →
          ∃ buffer1, generateByteArrayLen buffer pos l
            = some (buffer1, pos + prefixBytesNeeded l))
      ∧ (¬ pos + prefixBytesNeeded l ≤ buffer.length →
          generateByteArrayLen buffer pos l = none) := by
  have hn : prefixBytesNeeded l = (singleBytes l).length := by
    rw [singleBytes_length]; rfl
  have hok : pos + prefixBytesNeeded l ≤ buffer.length →
      ∃ buffer1, generateByteArrayLen buffer pos l
        = some (buffer1, pos + prefixBytesNeeded l) := by
    intro hcap
    rw [hn] at hcap ⊢
    exact ⟨_, generateByteArrayLen_ok buffer pos l hpos hcap⟩
  have hsome : (generateByteArrayLen buffer pos l).isSome →
      pos + prefixBytesNeeded l ≤ buffer.length := by
    intro hs
    obtain ⟨r, hr⟩ := Option.isSome_iff_exists.mp hs
    rw [generateByteArrayLen_eq_storeAll] at hr
    rw [hn]
    exact (storeAll_some _ buffer pos r (singleBytes_ne_nil l) hr).2
  refine ⟨⟨hsome, ?_⟩, hok, ?_⟩
  · intro hcap
    obtain ⟨buffer1, hb⟩ := hok hcap
    rw [hb]
    rfl
  · intro hcap
    cases hg : generateByteArrayLen buffer pos l with
    | none => rfl
    | some r =>
      have hs : (generateByteArrayLen buffer pos l).isSome := by rw [hg]; rfl
      exact absurd (hsome hs) hcap

/-- C17, for the length 300 at position 1: a buffer of four bytes has room for
the three prefix bytes, a buffer of three bytes has not. -/
theorem generateByteArrayLen_bounds_witness :
    (∃ buffer1, generateByteArrayLen [0, 0, 0, 0] 1 300
        = some (buffer1, 1 + prefixBytesNeeded 300))
      ∧ generateByteArrayLen [0, 0, 0] 1 300 = none :=
  ⟨(generateByteArrayLen_bounds [0, 0, 0, 0] 1 300 (by decide) (by decide)).2.1 (by decide),
   (generateByteArrayLen_bounds [0, 0, 0] 1 300 (by decide) (by decide)).2.2 (by decide)⟩

/-- Outside `[p, p + len(bs))` a buffer that carries `bs` at `p` is the buffer
it was made from. -/
theorem getElem?_splice (buffer bs : List Nat) (p i : Nat)
    (hcap : p + bs.length ≤ buffer.length) (hi : i < p ∨ p + bs.length ≤ i) :
    (buffer.take p ++ bs ++ buffer.drop (p + bs.length))[i]? = buffer[i]? := by
  have hl : (buffer.take p).length = p := by
    rw [List.length_take]; omega
  rcases hi with hi | hi
  · rw [List.append_assoc, List.getElem?_append_left (by omega), List.getElem?_take_of_lt hi]
  · rw [List.getElem?_append_right (by rw [List.length_append, hl]; omega),
      List.getElem?_drop, List.length_append, hl]
    congr 1
    omega

theorem length_splice (buffer bs : List Nat) (p : Nat)
    (hcap : p + bs.length ≤ buffer.length) :
    (buffer.take p ++ bs ++ buffer.drop (p + bs.length)).length = buffer.length := by
  simp only [List.length_append, List.length_take, List.length_drop]
  omega

/-- Frame of successive stores with room. -/
theorem storeAll_frame (buffer : List Nat) (pos : Int) (bs : List Nat) (hpos : 0 ≤ pos)
    (hcap : pos + bs.length ≤ buffer.length) :
    ∃ buffer1, storeAll buffer pos bs = some (buffer1, pos + bs.length)
      ∧ buffer1.length = buffer.length
      ∧ ∀ i : Nat, ((i : Int) < pos ∨ pos + bs.length ≤ (i : Int)) →
          buffer1[i]? = buffer[i]? := by
  refine ⟨_, storeAll_ok buffer pos bs hpos hcap, ?_, ?_⟩
  · exact length_splice buffer bs pos.toNat (by omega)
  · intro i hi
    exact getElem?_splice buffer bs pos.toNat i (by omega) (by omega)

/-- C19: for every length `l ≥ 0`, every position `pos ≥ 0` and every buffer
with room from `pos` on, `generateByteArrayLen` and
`generateByteArrayLenDouble` return a buffer of the same length in which every
byte before `pos` and every byte at or after the position returned is
unchanged. -/
theorem prefix_writers_frame (buffer : List Nat) (pos l : Int) (_hl : 0 ≤ l)
    (hpos : 0 ≤ pos) :
    (pos + writtenLen l ≤ buffer.length →
        ∃ buffer1 pos1, generateByteArrayLen buffer pos l = some (buffer1, pos1)
          ∧ buffer1.length = buffer.length
          ∧ ∀ i : Nat, ((i : Int) < pos ∨ pos1 ≤ (i : Int)) → buffer1[i]? = buffer[i]?)
      ∧ (pos + writtenLenDouble l ≤ buffer.length →
        ∃ buffer2 pos2, generateByteArrayLenDouble buffer pos l = some (buffer2, pos2)
          ∧ buffer2.length = buffer.length
          ∧ ∀ i : Nat, ((i : Int) < pos ∨ pos2 ≤ (i : Int)) → buffer2[i]? = buffer[i]?) := by
  constructor
  · intro hcap
    rw [writtenLen_eq] at hcap
    obtain ⟨buffer1, h1, h2, h3⟩ := storeAll_frame buffer pos (singleBytes l) hpos hcap
    rw [← generateByteArrayLen_eq_storeAll] at h1
    exact ⟨buffer1, _, h1, h2, h3⟩
  · intro hcap
    rw [writtenLenDouble_eq] at hcap
    obtain ⟨buffer2, h1, h2, h3⟩ := storeAll_frame buffer pos (doubleBytes l) hpos hcap
    rw [← generateByteArrayLenDouble_eq_storeAll] at h1
    exact ⟨buffer2, _, h1, h2, h3⟩

/-- C19, for the length 300 at position 2 of a buffer of ten bytes. -/
theorem prefix_writers_frame_witness :
    (∃ buffer1 pos1, generateByteArrayLen [1, 2, 3, 4, 5, 6, 7, 8, 9, 10] 2 300
          = some (buffer1, pos1)
        ∧ buffer1.length = [1, 2, 3, 4, 5, 6, 7, 8, 9, 10].length
        ∧ ∀ i : Nat, ((i : Int) < 2 ∨ pos1 ≤ (i : Int)) →
            buffer1[i]? = [1, 2, 3, 4, 5, 6, 7, 8, 9, 10][i]?)
      ∧ (∃ buffer2 pos2, generateByteArrayLenDouble [1, 2, 3, 4, 5, 6, 7, 8, 9, 10] 2 300
          = some (buffer2, pos2)
        ∧ buffer2.length = [1, 2, 3, 4, 5, 6, 7, 8, 9, 10].length
        ∧ ∀ i : Nat, ((i : Int) < 2 ∨ pos2 ≤ (i : Int)) →
            buffer2[i]? = [1, 2, 3, 4, 5, 6, 7, 8, 9, 10][i]?) :=
  ⟨(prefix_writers_frame [1, 2, 3, 4, 5, 6, 7, 8, 9, 10] 2 300 (by decide) (by decide)).1
      (by decide),
   (prefix_writers_frame [1, 2, 3, 4, 5, 6, 7, 8, 9, 10] 2 300 (by decide) (by decide)).2
      (by decide)⟩

end rlphacks

/-! ## The block witness: truncated streams and `WriteDiff` -/

namespace trie

theorem digitChar_inj : ∀ a < 10, ∀ b < 10, Nat.digitChar a = Nat.digitChar b → a = b := by
  decide

theorem digitChar_ne_minus : ∀ a < 10, Nat.digitChar a ≠ '-' := by
  decide

theorem map_digitChar_inj : ∀ (l1 l2 : List Nat), (∀ a ∈ l1, a < 10) → (∀ b ∈ l2, b < 10) →
    l1.map Nat.digitChar = l2.map Nat.digitChar → l1 = l2 := by
  intro l1
  induction l1 with
  | nil =>
    intro l2 _ _ h
    cases l2 with
    | nil => rfl
    | cons b l2 => simp at h
  | cons a l1 ih =>
    intro l2 h1 h2 h
    cases l2 with
    | nil => simp at h
    | cons b l2 =>
      simp only [List.map_cons, List.cons.injEq] at h
      have hab := digitChar_inj a (h1 a (List.mem_cons_self _ _)) b
        (h2 b (List.mem_cons_self _ _)) h.1
      have ht := ih l2 (fun x hx => h1 x (List.mem_cons_of_mem _ hx))
        (fun x hx => h2 x (List.mem_cons_of_mem _ hx)) h.2
      rw [hab, ht]

/-- The decimal digits, most significant first, as characters. -/
theorem digitsText_inj (m n : Nat)
    (h : (Nat.digits 10 m).reverse.map Nat.digitChar
      = (Nat.digits 10 n).reverse.map Nat.digitChar) : m = n := by
  have h10 : ∀ k : Nat, ∀ a ∈ (Nat.digits 10 k).reverse, a < 10 := by
    intro k a ha
    exact Nat.digits_lt_base (by norm_num) (List.mem_reverse.mp ha)
  have hr := map_digitChar_inj _ _ (h10 m) (h10 n) h
  exact Nat.digits_inj_iff.mp (List.reverse_injective hr)

theorem digitsText_ne_zero (n : Nat) (hn : n ≠ 0) :
    (Nat.digits 10 n).reverse.map Nat.digitChar ≠ ['0'] := by
  intro h
  have h10 : ∀ a ∈ (Nat.digits 10 n).reverse, a < 10 := by
    intro a ha
    exact Nat.digits_lt_base (by norm_num) (List.mem_reverse.mp ha)
  have h0 : ∀ b ∈ [0], b < 10 := by
    intro b hb
    rw [List.mem_singleton] at hb
    omega
  have hr : (Nat.digits 10 n).reverse = [0] :=
    map_digitChar_inj _ [0] h10 h0 (by rw [h]; rfl)
  have hd : Nat.digits 10 n = [0] := by
    have := congrArg List.reverse hr
    rwa [List.reverse_reverse] at this
  have hz := Nat.ofDigits_digits 10 n
  rw [hd] at hz
  simp at hz
  exact hn hz.symm

/-- The decimal text of `(*big.Int).String` determines the integer. -/
theorem bigIntString_inj (x y : Int) (h : bigIntString x = bigIntString y) : x = y := by
  unfold bigIntString at h
  by_cases hx : x = 0
  · by_cases hy : y = 0
    · rw [hx, hy]
    · rw [if_pos hx, if_neg hy] at h
      by_cases hy2 : y < 0
      · rw [if_pos hy2] at h
        simp at h
      · rw [if_neg hy2, List.nil_append] at h
        exact absurd h.symm (digitsText_ne_zero y.natAbs (by omega))
  · by_cases hy : y = 0
    · rw [if_neg hx, if_pos hy] at h
      by_cases hx2 : x < 0
      · rw [if_pos hx2] at h
        simp at h
      · rw [if_neg hx2, List.nil_append] at h
        exact absurd h (digitsText_ne_zero x.natAbs (by omega))
    · rw [if_neg hx, if_neg hy] at h
      have hne : ∀ n : Nat, n ≠ 0 →
          ∀ t, (Nat.digits 10 n).reverse.map Nat.digitChar ≠ '-' :: t := by
        intro n hn t ht
        cases hd : (Nat.digits 10 n).reverse with
        | nil => rw [hd] at ht; simp at ht
        | cons d ds =>
          rw [hd] at ht
          simp only [List.map_cons, List.cons.injEq] at ht
          have hd10 : d < 10 := by
            apply Nat.digits_lt_base (b := 10) (m := n) (by norm_num)
            apply List.mem_reverse.mp
            rw [hd]
            exact List.mem_cons_self _ _
          exact digitChar_ne_minus d hd10 ht.1
      by_cases hx2 : x < 0
      · by_cases hy2 : y < 0
        · rw [if_pos hx2, if_pos hy2] at h
          simp only [List.singleton_append, List.cons.injEq, true_and] at h
          have := digitsText_inj _ _ h
          omega
        · rw [if_pos hx2, if_neg hy2, List.nil_append, List.singleton_append] at h
          exact absurd h.symm (hne y.natAbs (by omega) _)
      · by_cases hy2 : y < 0
        · rw [if_neg hx2, if_pos hy2, List.nil_append, List.singleton_append] at h
          exact absurd h (hne x.natAbs (by omega) _)
        · rw [if_neg hx2, if_neg hy2, List.nil_append, List.nil_append] at h
          have := digitsText_inj _ _ h
          omega

/-- At an index where `WriteDiff` writes nothing and does not panic, the two
operands are equal. -/
theorem diffOperand_nil (i : Nat) (o1 : WitnessOperand) (operands2 : List WitnessOperand)
    (h : diffOperand i o1 operands2 = ([], none)) : operands2[i]? = some o1 := by
  cases hi : operands2[i]? with
  | none => cases o1 <;> simp [diffOperand, hi] at h
  | some o2 =>
    cases o1 <;> cases o2 <;> simp [diffOperand, hi] at h ⊢
    all_goals first
      | exact h.symm
      | exact ⟨h.1.symm, h.2.symm⟩
      | exact ⟨h.1.symm, h.2.1.symm, (bigIntString_inj _ _ h.2.2.1).symm, h.2.2.2.1.symm,
          h.2.2.2.2.symm⟩

/-- The loop only appends to `output`. -/
theorem diffLoop_append (operands2 : List WitnessOperand) :
    ∀ (operands1 : List WitnessOperand) (i : Nat) (output : List DiffLine),
      diffLoop operands2 i operands1 output
        = (output ++ (diffLoop operands2 i operands1 []).1,
           (diffLoop operands2 i operands1 []).2) := by
  intro operands1
  induction operands1 with
  | nil => intro i output; simp [diffLoop]
  | cons o1 operands1 ih =>
    intro i output
    rw [diffLoop, diffLoop]
    cases hd : diffOperand i o1 operands2 with
    | mk lines p =>
      cases p with
      | some p => simp
      | none =>
        simp only [List.nil_append]
        rw [ih (i + 1) (output ++ lines), ih (i + 1) lines, List.append_assoc]

/-- A loop that writes nothing and does not panic has met equal operands at
every index. -/
theorem diffLoop_nil (operands2 : List WitnessOperand) :
    ∀ (operands1 : List WitnessOperand) (i : Nat),
      diffLoop operands2 i operands1 [] = ([], none) →
      ∀ j, j < operands1.length → operands2[i + j]? = operands1[j]? := by
  intro operands1
  induction operands1 with
  | nil => intro i _ j hj; simp at hj
  | cons o1 operands1 ih =>
    intro i h j hj
    rw [diffLoop] at h
    cases hd : diffOperand i o1 operands2 with
    | mk lines p =>
      rw [hd] at h
      cases p with
      | some p => simp at h
      | none =>
        simp only [List.nil_append] at h
        rw [diffLoop_append] at h
        simp only [Prod.mk.injEq, List.append_eq_nil] at h
        obtain ⟨⟨hl, hrest⟩, hp⟩ := h
        subst hl
        have h0 := diffOperand_nil i o1 operands2 hd
        have hloop : diffLoop operands2 (i + 1) operands1 [] = ([], none) :=
          Prod.ext hrest hp
        cases j with
        | zero => simpa using h0
        | succ j =>
          have := ih (i + 1) hloop j (by simpa using hj)
          rw [List.getElem?_cons_succ, ← this]
          congr 1
          omega

/-- C13: for every pair of witnesses `w` and `w2` whose operands are all of the
seven known variants, if `w.WriteDiff(w2, output)` completes having written
nothing, then the header versions are equal, the operand counts are equal, and
at every index the operands are equal: the same variant with equal hash, mask,
key, value, code, nonce, balance, has-code and has-storage flags. -/
theorem WriteDiff_nothing_equal (w w2 : Witness) (output : List DiffLine)
    (_hk : ∀ op ∈ w.Operands, op.known = true) (_hk2 : ∀ op ∈ w2.Operands, op.known = true)
    (h : w.WriteDiff w2 output = (output, none)) :
    w.Header.Version = w2.Header.Version
      ∧ w.Operands.length = w2.Operands.length
      ∧ (∀ i : Nat, w.Operands[i]? = w2.Operands[i]?)
      ∧ w = w2 := by
  unfold Witness.WriteDiff at h
  rw [diffLoop_append] at h
  simp only [Prod.mk.injEq] at h
  obtain ⟨hout, hp⟩ := h
  have hv : w.Header.Version = w2.Header.Version := by
    by_contra hne
    rw [if_pos hne] at hout
    have := congrArg List.length hout
    split_ifs at this <;> simp only [List.length_append, List.length_singleton] at this <;> omega
  have hlen : w.Operands.length = w2.Operands.length := by
    by_contra hne
    rw [if_pos hne] at hout
    have := congrArg List.length hout
    split_ifs at this <;> simp only [List.length_append, List.length_singleton] at this <;> omega
  rw [if_neg (not_not.mpr hv), if_neg (not_not.mpr hlen)] at hout
  have hnil : (diffLoop w2.Operands 0 w.Operands []).1 = [] := by
    have := congrArg List.length hout
    simp only [List.length_append] at this
    exact List.length_eq_zero.mp (by omega)
  have hloop : diffLoop w2.Operands 0 w.Operands [] = ([], none) := Prod.ext hnil hp
  have hidx : ∀ i : Nat, w.Operands[i]? = w2.Operands[i]? := by
    intro i
    by_cases hi : i < w.Operands.length
    · have := diffLoop_nil w2.Operands w.Operands 0 hloop i hi
      rw [Nat.zero_add] at this
      exact this.symm
    · rw [List.getElem?_eq_none (by omega), List.getElem?_eq_none (by omega)]
  refine ⟨hv, hlen, hidx, ?_⟩
  have hops : w.Operands = w2.Operands := List.ext_getElem? hidx
  cases w with
  | mk header ops =>
    cases w2 with
    | mk header2 ops2 =>
      cases header
      cases header2
      simp only at hv hops
      rw [hv, hops]

/-- C13, for the witness of the demonstration operands against itself. -/
theorem WriteDiff_nothing_equal_witness :
    (NewWitness demoOperands).Header.Version = (NewWitness demoOperands).Header.Version
      ∧ (NewWitness demoOperands).Operands.length = (NewWitness demoOperands).Operands.length
      ∧ (∀ i : Nat, (NewWitness demoOperands).Operands[i]? = (NewWitness demoOperands).Operands[i]?)
      ∧ NewWitness demoOperands = NewWitness demoOperands :=
  WriteDiff_nothing_equal (NewWitness demoOperands) (NewWitness demoOperands) []
    (by decide) (by decide) (by simp [Witness.WriteDiff, NewWitness, demoOperands, diffLoop,
      diffOperand])

theorem known_opcodeOf (op : WitnessOperand) (h : op.known = true) :
    ∃ opcode, opcodeOf demoOpcodes op = some opcode := by
  cases op <;> simp [WitnessOperand.known, opcodeOf] at h ⊢

/-- C18: for every witness `w` whose operands are all of the seven known
variants, `w.WriteDiff(w, output)` completes and writes nothing. -/
theorem WriteDiff_self (w : Witness) (output : List DiffLine)
    (hk : ∀ op ∈ w.Operands, op.known = true) :
    w.WriteDiff w output = (output, none) := by
  have hd := diffLoop_self demoOpcodes w.Operands [] output
    fun op ho => known_opcodeOf op (hk op ho)
  simp only [Witness.WriteDiff, ne_eq, not_true_eq_false, if_false]
  exact hd

/-- C18, for the witness of the demonstration operands. -/
theorem WriteDiff_self_witness :
    (NewWitness demoOperands).WriteDiff (NewWitness demoOperands) [] = ([], none) :=
  WriteDiff_self (NewWitness demoOperands) [] (by decide)

/-- C12 fails on the code: with a branch operand in `w` against a hash operand
in `w2`, `WriteDiff` writes the line of the type mismatch and then reads the
mask through the nil pointer; with one operand in `w` and none in `w2` it
writes the line of the operand counts and then indexes `w2.Operands[0]`. -/
theorem WriteDiff_panics :
    (NewWitness [.OperandBranch 1]).WriteDiff
        (NewWitness [.OperandHash (List.replicate 32 0)]) []
        = ([.Types 0 "*trie.OperandBranch" "*trie.OperandBranch"], some .NilDereference)
      ∧ (NewWitness [.OperandBranch 1]).WriteDiff (NewWitness []) []
        = ([.OperandCount 1 0], some (.IndexOutOfRange 0 0)) := by
  constructor <;> decide

/-- C14 fails on the code: with an empty-root operand in `w` against a branch
operand in `w2`, the one line written for index 0 carries the type of the
operand of `w` twice, not the type `*trie.OperandBranch` of the operand of
`w2`; with the operands exchanged the line carries `*trie.OperandBranch`
twice and the call then panics. -/
theorem WriteDiff_variant_mismatch :
    (NewWitness [.OperandEmptyRoot]).WriteDiff (NewWitness [.OperandBranch 1]) []
        = ([.Types 0 "*trie.OperandEmptyRoot" "*trie.OperandEmptyRoot"], none)
      ∧ typeName (.OperandBranch 1) = "*trie.OperandBranch"
      ∧ (NewWitness [.OperandBranch 1]).WriteDiff (NewWitness [.OperandEmptyRoot]) []
        = ([.Types 0 "*trie.OperandBranch" "*trie.OperandBranch"], some .NilDereference)
      ∧ typeName .OperandEmptyRoot = "*trie.OperandEmptyRoot" := by
  refine ⟨by decide, by decide, by decide, by decide⟩

theorem map_ite_singleton {α β : Type} (f : α → β) (c : Prop) [Decidable c] (a : α) :
    (if c then [a] else []).map f = if c then [f a] else [] := by
  split_ifs <;> rfl

theorem filterMap_differ_cons (n1 n2 : String) (v1 v2 : FieldValue)
    (ps : List ((String × FieldValue) × (String × FieldValue))) :
    List.filterMap (fun p : (String × FieldValue) × (String × FieldValue) =>
        if p.1.2 ≠ p.2.2 then some p.1.1 else none) (((n1, v1), (n2, v2)) :: ps)
      = (if v1 ≠ v2 then [n1] else [])
          ++ List.filterMap (fun p : (String × FieldValue) × (String × FieldValue) =>
              if p.1.2 ≠ p.2.2 then some p.1.1 else none) ps := by
  rw [List.filterMap_cons]
  split_ifs <;> simp_all

theorem bigIntString_ne_iff (x y : Int) : bigIntString x ≠ bigIntString y ↔ x ≠ y :=
  ⟨fun h e => h (by rw [e]), fun h e => h (bigIntString_inj x y e)⟩

/-- For two operands of one known variant the loop body writes one line for
each differing field and does not panic. -/
theorem diffOperand_sameVariant (i : Nat) (o1 o2 : WitnessOperand)
    (operands2 : List WitnessOperand) (hi : operands2[i]? = some o2)
    (hv : sameKnownVariant o1 o2 = true) :
    ∃ lines, diffOperand i o1 operands2 = (lines, none)
      ∧ lines.map DiffLine.field = (differingFields o1 o2).map fun name => some (i, name) := by
  cases o1 <;> cases o2 <;> simp only [sameKnownVariant, Bool.false_eq_true] at hv
  all_goals simp only [diffOperand, hi]
  all_goals refine ⟨_, rfl, ?_⟩
  all_goals simp only [differingFields, fields, List.zip_cons_cons, List.zip_nil_right,
    filterMap_differ_cons, List.filterMap_nil, List.map_append, map_ite_singleton,
    List.map_nil, List.append_nil, DiffLine.field, ne_eq, FieldValue.Bytes.injEq,
    FieldValue.Number.injEq, FieldValue.Integer.injEq, FieldValue.Flag.injEq,
    bigIntString_ne_iff, List.append_assoc]

theorem drop_eq_cons {α : Type} (l : List α) (i : Nat) (a : α) (t : List α)
    (h : l.drop i = a :: t) : l[i]? = some a ∧ l.drop (i + 1) = t := by
  constructor
  · have h0 : (l.drop i)[0]? = l[i + 0]? := List.getElem?_drop l i 0
    rw [h] at h0
    simpa using h0.symm
  · have h1 := List.drop_drop 1 i l
    rw [h] at h1
    simpa using h1.symm

/-- Over operands of equal known variants the loop writes one line for each
differing field, in the order of the indices, and does not panic. -/
theorem diffLoop_sameVariant (operands2 : List WitnessOperand) :
    ∀ (operands1 : List WitnessOperand) (i : Nat),
      List.Forall₂ (fun o1 o2 => sameKnownVariant o1 o2 = true) operands1 (operands2.drop i) →
      ∃ lines, diffLoop operands2 i operands1 [] = (lines, none)
        ∧ lines.map DiffLine.field
            = (expectedDivergences i operands1 (operands2.drop i)).map some := by
  intro operands1
  induction operands1 with
  | nil =>
    intro i _
    exact ⟨[], rfl, by simp [expectedDivergences]⟩
  | cons o1 operands1 ih =>
    intro i h
    cases hd : operands2.drop i with
    | nil => rw [hd] at h; cases h
    | cons o2 tl =>
      rw [hd] at h
      obtain ⟨hi, htl⟩ := drop_eq_cons operands2 i o2 tl hd
      cases h with
      | cons hv hrest =>
        rw [← htl] at hrest
        obtain ⟨lines1, hl1, hf1⟩ := diffOperand_sameVariant i o1 o2 operands2 hi hv
        obtain ⟨lines2, hl2, hf2⟩ := ih (i + 1) hrest
        refine ⟨lines1 ++ lines2, ?_, ?_⟩
        · rw [diffLoop, hl1]
          simp only [List.nil_append]
          rw [diffLoop_append, hl2]
        · rw [List.map_append, hf1, hf2, expectedDivergences, htl, List.map_append,
            List.map_map]
          rfl

/-- Over a stretch of known operands that `operands2` repeats at the same
indices the loop writes nothing. -/
theorem diffLoop_equal_stretch (operands2 : List WitnessOperand) :
    ∀ (stretch rest : List WitnessOperand) (i : Nat) (output : List DiffLine),
      (∀ op ∈ stretch, op.known = true) →
      (∀ j : Nat, j < stretch.length → operands2[i + j]? = stretch[j]?) →
      diffLoop operands2 i (stretch ++ rest) output
        = diffLoop operands2 (i + stretch.length) rest output := by
  intro stretch
  induction stretch with
  | nil => intro rest i output _ _; rfl
  | cons op stretch ih =>
    intro rest i output hk hj
    obtain ⟨opcode, ho⟩ := known_opcodeOf op (hk op (List.mem_cons_self _ _))
    have h0 : operands2[i]? = some op := by
      have := hj 0 (by simp)
      simpa using this
    rw [List.cons_append, diffLoop, diffOperand_self i op operands2 opcode demoOpcodes ho h0]
    simp only [List.append_nil]
    rw [ih rest (i + 1) output (fun o h => hk o (List.mem_cons_of_mem _ h))]
    · congr 1
      simp only [List.length_cons]
      omega
    · intro j hlt
      have := hj (j + 1) (by simpa using hlt)
      rw [List.getElem?_cons_succ] at this
      rw [← this]
      congr 1
      omega

/-- C15: for every pair of witnesses with equal header versions, equal operand
counts and the same variant (one of the seven) at every index, `WriteDiff`
completes and writes exactly one line for each differing field, naming the
operand index and the field, and nothing else; two witnesses that differ only
in the mask of one branch operand yield exactly the one line of that index and
the field `Mask`. -/
theorem WriteDiff_fields :
    (∀ (w w2 : Witness) (output : List DiffLine),
        w.Header.Version = w2.Header.Version →
        List.Forall₂ (fun o1 o2 => sameKnownVariant o1 o2 = true) w.Operands w2.Operands →
        ∃ lines, w.WriteDiff w2 output = (output ++ lines, none)
          ∧ lines.map DiffLine.field
              = (expectedDivergences 0 w.Operands w2.Operands).map some)
      ∧ (∀ (header : WitnessHeader) (before after : List WitnessOperand) (m1 m2 : Nat)
          (output : List DiffLine), m1 ≠ m2 →
          (∀ op ∈ before, op.known = true) → (∀ op ∈ after, op.known = true) →
          Witness.WriteDiff ⟨header, before ++ .OperandBranch m1 :: after⟩
              ⟨header, before ++ .OperandBranch m2 :: after⟩ output
            = (output ++ [.Mask before.length m1 m2], none)) := by
  constructor
  · intro w w2 output hv hvar
    have hlen : w.Operands.length = w2.Operands.length := hvar.length_eq
    obtain ⟨lines, hl, hf⟩ := diffLoop_sameVariant w2.Operands w.Operands 0
      (by rw [List.drop_zero]; exact hvar)
    rw [List.drop_zero] at hf
    refine ⟨lines, ?_, hf⟩
    simp only [Witness.WriteDiff, ne_eq, hv, hlen, not_true_eq_false, if_false]
    rw [diffLoop_append, hl]
  · intro header before after m1 m2 output hm hkb hka
    unfold Witness.WriteDiff
    simp only [ne_eq, not_true_eq_false, if_false, List.length_append, List.length_cons]
    have h1 := diffLoop_equal_stretch (before ++ .OperandBranch m2 :: after) before
      (.OperandBranch m1 :: after) 0 output hkb
      (by
        intro j hj
        rw [Nat.zero_add, List.getElem?_append_left hj])
    rw [h1, Nat.zero_add, diffLoop]
    have hi : (before ++ WitnessOperand.OperandBranch m2 :: after)[before.length]?
        = some (.OperandBranch m2) := by
      rw [List.getElem?_append_right (le_refl _), Nat.sub_self, List.getElem?_cons_zero]
    simp only [diffOperand, hi, ne_eq, hm, not_false_eq_true, if_true]
    have h2 := diffLoop_equal_stretch (before ++ .OperandBranch m2 :: after) after []
      (before.length + 1) (output ++ [.Mask before.length m1 m2]) hka
      (by
        intro j hj
        rw [List.getElem?_append_right (by omega)]
        have e : before.length + 1 + j - before.length = j + 1 := by omega
        rw [e, List.getElem?_cons_succ])
    rw [List.append_nil] at h2
    rw [h2]
    rfl

/-- C15, for two witnesses that differ in the mask of the branch
operand at index 1 and in the nonce and the balance of the account leaf at
index 2, and for two witnesses that differ only in one bit of that mask. -/
theorem WriteDiff_fields_witness :
    (∃ lines,
        (NewWitness [.OperandEmptyRoot, .OperandBranch 5,
            .OperandLeafAccount [6] 7 8 true false]).WriteDiff
          (NewWitness [.OperandEmptyRoot, .OperandBranch 4,
            .OperandLeafAccount [6] 9 (-8) true false]) []
          = ([] ++ lines, none)
        ∧ lines.map DiffLine.field
            = (expectedDivergences 0
                [.OperandEmptyRoot, .OperandBranch 5, .OperandLeafAccount [6] 7 8 true false]
                [.OperandEmptyRoot, .OperandBranch 4,
                  .OperandLeafAccount [6] 9 (-8) true false]).map some)
      ∧ Witness.WriteDiff ⟨⟨1⟩, [.OperandEmptyRoot] ++ .OperandBranch 5 :: [.OperandCode [9]]⟩
          ⟨⟨1⟩, [.OperandEmptyRoot] ++ .OperandBranch 4 :: [.OperandCode [9]]⟩ []
          = ([] ++ [.Mask [WitnessOperand.OperandEmptyRoot].length 5 4], none) :=
  ⟨WriteDiff_fields.1
      (NewWitness [.OperandEmptyRoot, .OperandBranch 5, .OperandLeafAccount [6] 7 8 true false])
      (NewWitness [.OperandEmptyRoot, .OperandBranch 4,
        .OperandLeafAccount [6] 9 (-8) true false]) [] rfl
      (by
        refine List.Forall₂.cons rfl (List.Forall₂.cons rfl (List.Forall₂.cons rfl ?_))
        exact List.Forall₂.nil),
   WriteDiff_fields.2 ⟨1⟩ [.OperandEmptyRoot] [.OperandCode [9]] 5 4 [] (by decide)
      (by decide) (by decide)⟩

/-- For every stream with a valid header, at an opcode boundary (after `k`
operands read): when the next byte is an opcode that is delivered without an
error and the field reader of its operand reports an error, end of input
included, `NewWitnessFromReader` gives that error and no witness, not the
operands read so far; when the stream ends there, it gives the witness of the
operands read. -/
theorem NewWitnessFromReader_truncated (c : OperandCodec) (data : List Nat) (fail : Error)
    (withLast : Bool) (k : Nat) (ops : List WitnessOperand) (input1 : Reader) (trace : Bool)
    (hhead : ¬ (data = [] ∧ withLast = true))
    (hb : boundaryAfter c k ⟨data, fail, withLast⟩ = some (ops, input1)) :
    (∀ (b : Nat) (rest : List Nat) (fresh : WitnessOperand) (err : Error),
        input1.data = b :: rest → ¬ (rest = [] ∧ input1.failWithLast = true) →
        newOperand c.ops b = some fresh →
        c.LoadFrom fresh ⟨rest, input1.fail, input1.failWithLast⟩ = .error err →
        NewWitnessFromReader c ⟨WitnessVersion :: data, fail, withLast⟩ trace = .error err)
      ∧ (input1.data = [] → input1.fail = .EOF →
        NewWitnessFromReader c ⟨WitnessVersion :: data, fail, withLast⟩ trace
          = .ok ⟨⟨WitnessVersion⟩, ops⟩) := by
  obtain ⟨⟨hlen, _⟩, hloop⟩ := readOperands_boundary c k _ _ ops hb
  have e : data.length + 1 = (data.length - k + 1) + k := by
    simp only at hlen
    omega
  have hstart : NewWitnessFromReader c ⟨WitnessVersion :: data, fail, withLast⟩ trace
      = match readOperands c (data.length - k + 1) input1 ([] ++ ops) with
        | .error err => .error err
        | .ok operands => .ok ⟨⟨WitnessVersion⟩, operands⟩ := by
    simp only [NewWitnessFromReader, WitnessHeader.LoadFrom]
    rw [Reader.Read_byte WitnessVersion data fail withLast hhead]
    simp only [ne_eq, not_true_eq_false, if_false]
    rw [e, hloop]
    try rfl
  constructor
  · intro b rest fresh err hd hplain hf hl
    rw [hstart, readOperands]
    obtain ⟨data1, fail1, withLast1⟩ := input1
    simp only at hd hl hplain
    subst hd
    rw [Reader.Read_byte b rest fail1 withLast1 hplain]
    simp only
    rw [hf]
    simp only
    rw [hl]
  · intro hd hf
    rw [hstart]
    obtain ⟨data1, fail1, withLast1⟩ := input1
    simp only at hd hf
    subst hd
    subst hf
    rw [readOperands_eof]
    try rfl

/-- C11 fails on the code: on a reader that reports `io.EOF` together with its
last byte, the stream `01 02` ends right after the opcode of a branch operand,
whose mask is cut off; the read of the opcode delivers the byte together with
`io.EOF`, the loop tests the error first and ends, and `NewWitnessFromReader`
returns a witness without operands and no error.  On the stream `01 02 05 06`
the last opcode is dropped in the same way and the operand list returned is
one operand short.  On a reader that reports `io.EOF` after its last byte the
first stream gives the error of the field reader and the second both
operands. -/
theorem NewWitnessFromReader_returns_truncated :
    demoCodec.ops.OpBranch = 2
      ∧ NewWitnessFromReader demoCodec ⟨[1, 2], .EOF, true⟩ false = .ok ⟨⟨1⟩, []⟩
      ∧ NewWitnessFromReader demoCodec ⟨[1, 2], .EOF, false⟩ false = .error .EOF
      ∧ NewWitnessFromReader demoCodec ⟨[1, 2, 5, 6], .EOF, true⟩ false
          = .ok ⟨⟨1⟩, [.OperandBranch 5]⟩
      ∧ NewWitnessFromReader demoCodec ⟨[1, 2, 5, 6], .EOF, false⟩ false
          = .ok ⟨⟨1⟩, [.OperandBranch 5, .OperandEmptyRoot]⟩ :=
  ⟨rfl, rfl, rfl, rfl, rfl⟩

end trie

/-! ## The root hash of a list -/

namespace types

theorem legacyLoop_eq_foldl (T : TrieOps) (list : DerivableList) :
    ∀ (fuel i : Nat) (trie : T.Trie), ((i + fuel : Nat) : Int) ≤ list.Len →
      legacyLoop T list fuel i trie
        = ((List.range' i fuel).foldl
            (fun trie i => T.Update trie (T.rlpEncodeUint i) (list.GetRaw i) 0) trie) := by
  intro fuel
  induction fuel with
  | zero => intro i trie _; rfl
  | succ fuel ih =>
    intro i trie h
    have hi : (i : Int) < list.Len := by omega
    rw [legacyLoop, if_pos hi, List.range'_succ, List.foldl_cons]
    simp only [List.nil_append]
    exact ih (i + 1) _ (by omega)

/-- C16: for every list, `DeriveSha list` (as the specification states its
contract) is `legacyDeriveSha list`, the hash of the trie obtained by
inserting, for every `i` in `[0, list.Len())`, the value `list.GetRaw(i)`
under the key `rlp.Encode(uint(i))` into an initially empty trie. -/
theorem DeriveSha_eq_legacy (T : TrieOps) (list : DerivableList) :
    DeriveSha T list = legacyDeriveSha T list := by
  unfold DeriveSha legacyDeriveSha
  by_cases h : 0 ≤ list.Len
  · rw [legacyLoop_eq_foldl T list list.Len.toNat 0 T.New (by omega), List.range_eq_range']
  · have h0 : list.Len.toNat = 0 := by omega
    rw [h0]
    rfl

end types

/-! ## The bucket keys -/

namespace ethdb

theorem bucketKey_eq (bucket key : List Nat) :
    bucketKey bucket key = bucket ++ [bucketSeparator] ++ key := by
  simp [bucketKey]

/-- Two lists that agree around a separator which neither head contains have
the same head and the same tail. -/
theorem append_separator_inj (s : Nat) : ∀ (b1 b2 k1 k2 : List Nat),
    s ∉ b1 → s ∉ b2 → b1 ++ s :: k1 = b2 ++ s :: k2 → b1 = b2 ∧ k1 = k2 := by
  intro b1
  induction b1 with
  | nil =>
    intro b2 k1 k2 _ h2 h
    cases b2 with
    | nil => simp only [List.nil_append, List.cons.injEq, true_and] at h; exact ⟨rfl, h⟩
    | cons x b2 =>
      simp only [List.nil_append, List.cons_append, List.cons.injEq] at h
      exact absurd (by rw [h.1]; exact List.mem_cons_self _ _) h2
  | cons x b1 ih =>
    intro b2 k1 k2 h1 h2 h
    cases b2 with
    | nil =>
      simp only [List.nil_append, List.cons_append, List.cons.injEq] at h
      exact absurd (by rw [← h.1]; exact List.mem_cons_self _ _) h1
    | cons y b2 =>
      simp only [List.cons_append, List.cons.injEq] at h
      obtain ⟨hxy, ht⟩ := h
      obtain ⟨hb, hk⟩ := ih b2 k1 k2 (fun hm => h1 (List.mem_cons_of_mem _ hm))
        (fun hm => h2 (List.mem_cons_of_mem _ hm)) ht
      exact ⟨by rw [hxy, hb], hk⟩

/-- C20: `bucketKey bucket key` is `bucket ++ [0xA6] ++ key`, and on buckets
without a byte `0xA6` it is injective: equal composite keys come from equal
buckets and equal keys. -/
theorem bucketKey_injective (b1 b2 k1 k2 : List Nat)
    (h1 : 0xA6 ∉ b1) (h2 : 0xA6 ∉ b2) :
    bucketKey b1 k1 = b1 ++ [0xA6] ++ k1
      ∧ (bucketKey b1 k1 = bucketKey b2 k2 → b1 = b2 ∧ k1 = k2) := by
  refine ⟨bucketKey_eq b1 k1, ?_⟩
  intro h
  rw [bucketKey_eq, bucketKey_eq] at h
  simp only [List.append_assoc, List.singleton_append] at h
  exact append_separator_inj bucketSeparator b1 b2 k1 k2 h1 h2 h

/-- C20, for the bucket `[1, 2]` and the key `[0xA6, 3]`. -/
theorem bucketKey_injective_witness :
    bucketKey [1, 2] [0xA6, 3] = [1, 2] ++ [0xA6] ++ [0xA6, 3]
      ∧ (bucketKey [1, 2] [0xA6, 3] = bucketKey [1, 2] [0xA6, 3] →
          [1, 2] = [1, 2] ∧ [0xA6, 3] = [0xA6, 3]) :=
  bucketKey_injective [1, 2] [1, 2] [0xA6, 3] [0xA6, 3] (by decide) (by decide)

end ethdb
